import Mathlib

/-!
# glTF viewer: the bind walk and the draw walk

A shallow embedding of `src/main.cpp`.  The program loads one glTF model,
uploads its buffer views to GPU buffers (`bindBufferViews`), walks the scene
graph once to set up vertex attributes (`bindModelNode`, `bindMesh`), keeps the
index buffers (`bindModel`) and then, every frame, walks the scene graph again
to issue one draw call per primitive (`drawModel`).

Conventions of the embedding.

* `std::vector` is a `List`; `v[i]` with `i` outside the vector is undefined
  behaviour in C++ and is the error `Err.undefinedBehaviour` here.
* `std::map<int, GLuint>` is an association list kept sorted by key (the
  iteration order of `std::map`).
* The graphics library is not executed: every function returns the list of
  calls it makes, in order.  The names handed out by `glGenBuffers` are a
  parameter `names : Nat → GLuint` (`names k` is the name of the `k`-th
  generated buffer).
* The recursions over the node graph take a `fuel : Nat` that bounds the
  recursion depth; running out of it is the error `Err.outOfFuel`.
* Integers are `Int` and `Nat`; where the program narrows one, the `size_t`
  count handed to `glDrawElements` as a `GLsizei`, the conversion is explicit
  (`toGLsizei`).
-/

namespace Gltf

/-! ## Data model (the parts of the tinygltf document the program reads) -/

abbrev GLuint := Nat

def GL_ARRAY_BUFFER : Int := 34962
def GL_ELEMENT_ARRAY_BUFFER : Int := 34963
def GL_STATIC_DRAW : Int := 35044
def TINYGLTF_TYPE_SCALAR : Int := 65

structure Buffer where
  data : List Nat
  deriving DecidableEq, Repr

structure BufferView where
  buffer : Int
  byteOffset : Nat
  byteLength : Nat
  target : Int
  deriving DecidableEq, Repr

structure Accessor where
  bufferView : Int
  byteOffset : Nat
  normalized : Bool
  componentType : Int
  count : Nat
  type : Int
  deriving DecidableEq, Repr

/-- A primitive; `attributes` is the `std::map<std::string, int>` in its
iteration order. -/
structure Primitive where
  attributes : List (String × Int)
  indices : Int
  mode : Int
  deriving DecidableEq, Repr

structure Mesh where
  primitives : List Primitive
  deriving DecidableEq, Repr

structure Node where
  mesh : Int
  children : List Int
  deriving DecidableEq, Repr

structure Scene where
  nodes : List Int
  deriving DecidableEq, Repr

structure Model where
  accessors : List Accessor
  buffers : List Buffer
  bufferViews : List BufferView
  meshes : List Mesh
  nodes : List Node
  scenes : List Scene
  defaultScene : Int
  deriving DecidableEq, Repr

/-! ## Errors and the call trace -/

inductive Err where
  /-- a `std::vector` was indexed outside its bounds -/
  | undefinedBehaviour
  /-- `std::map::at` raised `std::out_of_range` -/
  | outOfRange
  /-- `std::runtime_error` with its message -/
  | runtimeError (what : String)
  /-- the recursion went deeper than the fuel allows -/
  | outOfFuel
  deriving DecidableEq, Repr

/-- One call into the graphics library, with the arguments the program passes.
`enterNode` is not a library call: it is a ghost marker recording that a walk
entered the node with this index. -/
inductive GLCall where
  | genBuffers (buffer : GLuint)
  | bindBuffer (target : Int) (buffer : GLuint)
  | bufferData (target : Int) (size : Nat) (data : List Nat) (usage : Int)
  | enableVertexAttribArray (index : Int)
  | vertexAttribPointer (index size type : Int) (normalized : Bool)
      (stride : Int) (pointer : Nat)
  | genVertexArrays (array : GLuint)
  | bindVertexArray (array : GLuint)
  | deleteBuffers (buffer : GLuint)
  | deleteVertexArrays (array : GLuint)
  | drawElements (mode : Int) (count : Int) (type : Int) (indices : Nat)
  | enterNode (node : Int)
  deriving DecidableEq, Repr

/-- The element `i` of a vector, if `i` is inside it. -/
def at? {α : Type} (xs : List α) (i : Int) : Option α :=
  if 0 ≤ i then xs[i.toNat]? else none

/-- The C++ expression `xs[i]`: undefined behaviour outside the bounds. -/
def index {α : Type} (xs : List α) (i : Int) : Except Err α :=
  match at? xs i with
  | some x => .ok x
  | none => .error .undefinedBehaviour

/-- The conversion of a `size_t` to `GLsizei`, a signed 32-bit integer: the
value is reduced modulo 2^32 and read as two's complement. -/
def toGLsizei (n : Nat) : Int :=
  if n % 2 ^ 32 < 2 ^ 31 then ((n % 2 ^ 32 : Nat) : Int)
  else ((n % 2 ^ 32 : Nat) : Int) - 2 ^ 32

/-- The bytes `&data[offset]`, `length` of them, as `glBufferData` reads them. -/
def slice (data : List Nat) (offset length : Nat) : Except Err (List Nat) :=
  if offset < data.length ∧ offset + length ≤ data.length then
    .ok ((data.drop offset).take length)
  else .error .undefinedBehaviour

/-! ## `std::map<int, GLuint>` -/

abbrev Vbos := List (Int × GLuint)

def mapFind (m : Vbos) (key : Int) : Option GLuint :=
  match m with
  | [] => none
  | (k, v) :: rest => if key = k then some v else mapFind rest key

/-- The assignment `m[key] = value`. -/
def mapInsert (m : Vbos) (key : Int) (value : GLuint) : Vbos :=
  match m with
  | [] => [(key, value)]
  | (k, v) :: rest =>
    if key < k then (key, value) :: (k, v) :: rest
    else if key = k then (key, value) :: rest
    else (k, v) :: mapInsert rest key value

/-- The read `m[key]`: an absent key is inserted with the value `0`. -/
def mapIndex (m : Vbos) (key : Int) : GLuint × Vbos :=
  match mapFind m key with
  | some v => (v, m)
  | none => (0, mapInsert m key 0)

/-- The read `m.at(key)`: an absent key raises `std::out_of_range`. -/
def mapAt (m : Vbos) (key : Int) : Except Err GLuint :=
  match mapFind m key with
  | some v => .ok v
  | none => .error .outOfRange

/-! ## `loadModel` -/

/-- What `TinyGLTF::LoadASCIIFromFile` hands back: the return value, the parsed
model and the two message strings. -/
structure LoadResult where
  ret : Bool
  model : Model
  err : String
  warn : String

/-- `loadModel`: the text written to `std::cout` and the outcome. -/
def loadModel (loader : String → LoadResult) (path : String) :
    String × Except Err Model :=
  let r := loader path
  let out := r.warn ++ "\n" ++ r.err ++ "\n"
  if !r.ret then (out, .error (.runtimeError "Could not load model"))
  else (out, .ok r.model)

/-! ## Binding -/

/-- Modelled from the spec: `RaiiBindBuffer` lives in `routine.hpp`, which is
not part of the sources at hand; the guard binds the buffer for the lifetime of
the scope, so `body` runs between a bind of `buffer` and a bind of `0`. -/
def RaiiBindBuffer (target : Int) (buffer : GLuint) (body : List GLCall) :
    List GLCall :=
  GLCall.bindBuffer target buffer :: body ++ [GLCall.bindBuffer target 0]

/-- Modelled from the spec: `RaiiBindVao` lives in `routine.hpp`, which is not
part of the sources at hand; the guard binds the vertex array for the lifetime
of the scope, so `body` runs between a bind of `vao` and a bind of `0`. -/
def RaiiBindVao (vao : GLuint) (body : List GLCall) : List GLCall :=
  GLCall.bindVertexArray vao :: body ++ [GLCall.bindVertexArray 0]

/-- The component count of an accessor as `bindMesh` computes it: `size` is 1,
and is replaced by the type code unless the type is `TINYGLTF_TYPE_SCALAR`. -/
def componentCount (type : Int) : Int :=
  if type ≠ TINYGLTF_TYPE_SCALAR then type else 1

/-- The loop of `bindBufferViews` from buffer view `i` on, `views` being the
buffer views not yet visited and `k` the number of buffers generated so far. -/
def bindBufferViewsFrom (names : Nat → GLuint) (model : Model) :
    List BufferView → Int → Nat → Vbos → Except Err (Vbos × List GLCall)
  | [], _, _, vbos => .ok (vbos, [])
  | bufferView :: views, i, k, vbos =>
    if bufferView.target = 0 then
      bindBufferViewsFrom names model views (i + 1) k vbos
    else do
      let buffer ← index model.buffers bufferView.buffer
      let bytes ← slice buffer.data bufferView.byteOffset bufferView.byteLength
      let vbo := names k
      let vbos := mapInsert vbos i vbo
      let (vbos, calls) ← bindBufferViewsFrom names model views (i + 1) (k + 1) vbos
      pure (vbos, GLCall.genBuffers vbo ::
        RaiiBindBuffer bufferView.target vbo
          [GLCall.bufferData bufferView.target bufferView.byteLength bytes GL_STATIC_DRAW]
        ++ calls)

def bindBufferViews (names : Nat → GLuint) (vbos : Vbos) (model : Model) :
    Except Err (Vbos × List GLCall) :=
  bindBufferViewsFrom names model model.bufferViews 0 0 vbos

/-- The inner loop of `bindMesh`, over the attributes of one primitive.
`byteStride` is tinygltf's `Accessor::ByteStride`. -/
def bindMeshAttributes (byteStride : Accessor → BufferView → Int) (model : Model) :
    List (String × Int) → Vbos → Except Err (Vbos × List GLCall)
  | [], vbos => .ok (vbos, [])
  | (name, accessorId) :: rest, vbos =>
    let vaa : Int :=
      if name = "POSITION" then 0
      else if name = "NORMAL" then 1
      else if name = "TEXCOORD_0" then 2
      else -1
    if vaa = -1 then
      bindMeshAttributes byteStride model rest vbos
    else do
      let accessor ← index model.accessors accessorId
      let size : Int := componentCount accessor.type
      let bufferView ← index model.bufferViews accessor.bufferView
      let stride := byteStride accessor bufferView
      let (vbo, vbos) := mapIndex vbos accessor.bufferView
      let (vbos, calls) ← bindMeshAttributes byteStride model rest vbos
      pure (vbos,
        [GLCall.bindBuffer GL_ARRAY_BUFFER vbo,
         GLCall.enableVertexAttribArray vaa,
         GLCall.vertexAttribPointer vaa size accessor.componentType
           accessor.normalized stride accessor.byteOffset] ++ calls)

/-- The outer loop of `bindMesh`, over the primitives. -/
def bindMeshPrimitives (byteStride : Accessor → BufferView → Int) (model : Model) :
    List Primitive → Vbos → Except Err (Vbos × List GLCall)
  | [], vbos => .ok (vbos, [])
  | primitive :: rest, vbos => do
    let _idxAccessor ← index model.accessors primitive.indices
    let (vbos, calls) ← bindMeshAttributes byteStride model primitive.attributes vbos
    let (vbos, more) ← bindMeshPrimitives byteStride model rest vbos
    pure (vbos, calls ++ more)

def bindMesh (byteStride : Accessor → BufferView → Int) (vbos : Vbos)
    (model : Model) (mesh : Mesh) : Except Err (Vbos × List GLCall) :=
  bindMeshPrimitives byteStride model mesh.primitives vbos

/-- The loop `for (id : ids) { node = model.nodes[id]; visit(vbos, model, node); }`
of the bind walk; it is the loop of `bindModelNode` over the children and the
loop of `bindModel` over the roots of the scene. -/
def bindNodes (model : Model)
    (visit : Vbos → Node → Except Err (Vbos × List GLCall)) :
    List Int → Vbos → Except Err (Vbos × List GLCall)
  | [], vbos => .ok (vbos, [])
  | id :: rest, vbos => do
    let node ← index model.nodes id
    let (vbos, calls) ← visit vbos node
    let (vbos, more) ← bindNodes model visit rest vbos
    pure (vbos, GLCall.enterNode id :: calls ++ more)

def bindModelNode (byteStride : Accessor → BufferView → Int) (model : Model) :
    Nat → Vbos → Node → Except Err (Vbos × List GLCall)
  | 0, _, _ => .error .outOfFuel
  | fuel + 1, vbos, node => do
    let (vbos, calls) ←
      (if 0 ≤ node.mesh ∧ node.mesh < model.meshes.length then do
        let mesh ← index model.meshes node.mesh
        bindMesh byteStride vbos model mesh
      else pure (vbos, []))
    let (vbos, more) ←
      bindNodes model (bindModelNode byteStride model fuel) node.children vbos
    pure (vbos, calls ++ more)

/-- The last loop of `bindModel`: the entries whose buffer view is an element
array buffer stay, every other entry is deleted and erased. -/
def bindModelSweep (model : Model) : Vbos → Except Err (Vbos × List GLCall)
  | [] => .ok ([], [])
  | (key, handle) :: rest => do
    let bufferView ← index model.bufferViews key
    let (kept, calls) ← bindModelSweep model rest
    if bufferView.target = GL_ELEMENT_ARRAY_BUFFER then
      pure ((key, handle) :: kept, calls)
    else
      pure (kept, GLCall.deleteBuffers handle :: calls)

/-- The first block of `bindModel`, up to the end of the scope of the vertex
array guard: the map as it is before the last loop, and the calls made. -/
def bindModelSetup (names : Nat → GLuint) (vao : GLuint)
    (byteStride : Accessor → BufferView → Int) (model : Model) (fuel : Nat) :
    Except Err (Vbos × List GLCall) := do
  let scene ← index model.scenes model.defaultScene
  let (vbos, uploads) ← bindBufferViews names [] model
  let (vbos, binds) ←
    bindNodes model (bindModelNode byteStride model fuel) scene.nodes vbos
  pure (vbos, GLCall.genVertexArrays vao :: RaiiBindVao vao (uploads ++ binds))

/-- `bindModel`: the vertex array, the map of index buffers, and the calls made.
`vao` is the name `glGenVertexArrays` hands out. -/
def bindModel (names : Nat → GLuint) (vao : GLuint)
    (byteStride : Accessor → BufferView → Int) (model : Model) (fuel : Nat) :
    Except Err (GLuint × Vbos × List GLCall) := do
  let (vbos, setup) ← bindModelSetup names vao byteStride model fuel
  let (ebos, deletes) ← bindModelSweep model vbos
  pure (vao, ebos, setup ++ deletes)

/-! ## Drawing -/

/-- The loop of `drawModelMeshes` over the primitives.  `accessor.count` is a
`size_t` and the parameter of `glDrawElements` a `GLsizei`: the call carries the
converted count. -/
def drawModelPrimitives (ebos : Vbos) (model : Model) :
    List Primitive → Except Err (List GLCall)
  | [] => .ok []
  | primitive :: rest => do
    let accessor ← index model.accessors primitive.indices
    let ebo ← mapAt ebos accessor.bufferView
    let more ← drawModelPrimitives ebos model rest
    pure (RaiiBindBuffer GL_ELEMENT_ARRAY_BUFFER ebo
      [GLCall.drawElements primitive.mode (toGLsizei accessor.count)
        accessor.componentType accessor.byteOffset] ++ more)

def drawModelMeshes (ebos : Vbos) (model : Model) (mesh : Mesh) :
    Except Err (List GLCall) :=
  drawModelPrimitives ebos model mesh.primitives

/-- The loop `for (id : ids) { node = model.nodes[id]; visit(ebos, model, node); }`
of the draw walk; it is the loop of `drawModelNodes` over the children and the
loop of `drawModel` over the roots of the scene. -/
def drawNodes (model : Model) (visit : Node → Except Err (List GLCall)) :
    List Int → Except Err (List GLCall)
  | [] => .ok []
  | id :: rest => do
    let node ← index model.nodes id
    let calls ← visit node
    let more ← drawNodes model visit rest
    pure (GLCall.enterNode id :: calls ++ more)

def drawModelNodes (ebos : Vbos) (model : Model) :
    Nat → Node → Except Err (List GLCall)
  | 0, _ => .error .outOfFuel
  | fuel + 1, node => do
    let mesh ← index model.meshes node.mesh
    let calls ← drawModelMeshes ebos model mesh
    let more ← drawNodes model (drawModelNodes ebos model fuel) node.children
    pure (calls ++ more)

def drawModel (vao : GLuint) (ebos : Vbos) (model : Model) (fuel : Nat) :
    Except Err (List GLCall) := do
  let scene ← index model.scenes model.defaultScene
  let calls ← drawNodes model (drawModelNodes ebos model fuel) scene.nodes
  pure (RaiiBindVao vao calls)

/-! ## `main` -/

/-- The calls `main` makes on buffers, vertex arrays and draws when it runs to
`return 0`, or the exception that ends it.  `frames` is the number of times
`glfwWindowShouldClose` answers false.  No exception is caught anywhere. -/
def main (loader : String → LoadResult) (names : Nat → GLuint) (vaoName : GLuint)
    (byteStride : Accessor → BufferView → Int) (fuel frames : Nat) :
    Except Err (List GLCall) := do
  let model ← (loadModel loader "model.gltf").2
  let (vao, idxBuffers, binds) ← bindModel names vaoName byteStride model fuel
  let draws ← (List.replicate frames ()).mapM (fun _ => drawModel vao idxBuffers model fuel)
  pure (binds ++ draws.flatten ++ [GLCall.deleteVertexArrays vao]
    ++ idxBuffers.map (fun e => GLCall.deleteBuffers e.2))

/-! ## The vertex-array state the calls leave behind -/

/-- What `glVertexAttribPointer` records for one attribute location: the buffer
bound to `GL_ARRAY_BUFFER` at the time of the call, and the layout. -/
structure VertexAttrib where
  buffer : GLuint
  size : Int
  type : Int
  normalized : Bool
  stride : Int
  pointer : Nat
  deriving DecidableEq, Repr

/-- The part of the graphics state the vertex fetch depends on: the bound
vertex array, the buffer bound to `GL_ARRAY_BUFFER`, and for every vertex array
and attribute location the recorded attribute. -/
structure GLState where
  vertexArray : GLuint
  arrayBuffer : GLuint
  attribs : GLuint → Int → Option VertexAttrib

def GLState.initial : GLState :=
  { vertexArray := 0, arrayBuffer := 0, attribs := fun _ _ => none }

/-- The effect of one call on the state. -/
def GLState.step (s : GLState) : GLCall → GLState
  | .bindVertexArray array => { s with vertexArray := array }
  | .bindBuffer target buffer =>
    if target = GL_ARRAY_BUFFER then { s with arrayBuffer := buffer } else s
  | .vertexAttribPointer index size type normalized stride pointer =>
    { s with attribs := fun array location =>
        if array = s.vertexArray ∧ location = index then
          some { buffer := s.arrayBuffer, size := size, type := type,
                 normalized := normalized, stride := stride, pointer := pointer }
        else s.attribs array location }
  | _ => s

/-- The attributes of the bound vertex array at locations 0, 1 and 2 at the
moment of every `glDrawElements` call of a trace, in order. -/
def attribsAtDraws : GLState → List GLCall → List (List (Option VertexAttrib))
  | _, [] => []
  | s, .drawElements _ _ _ _ :: rest =>
    [s.attribs s.vertexArray 0, s.attribs s.vertexArray 1, s.attribs s.vertexArray 2]
      :: attribsAtDraws s rest
  | s, call :: rest => attribsAtDraws (s.step call) rest

/-! ## Well-formedness of a model -/

/-- The index `i` is inside the vector `xs`. -/
def InBounds {α : Type} (xs : List α) (i : Int) : Prop :=
  0 ≤ i ∧ i < xs.length

instance {α : Type} (xs : List α) (i : Int) : Decidable (InBounds xs i) := by
  unfold InBounds; infer_instance

/-- The roots of the default scene. -/
def roots (model : Model) : List Int :=
  match at? model.scenes model.defaultScene with
  | some scene => scene.nodes
  | none => []

/-- The children of the node with index `id`. -/
def childrenOf (model : Model) (id : Int) : List Int :=
  match at? model.nodes id with
  | some node => node.children
  | none => []

/-- The nodes reachable from the default scene. -/
inductive Reachable (model : Model) : Int → Prop where
  | root {id : Int} : id ∈ roots model → Reachable model id
  | child {parent id : Int} :
      Reachable model parent → id ∈ childrenOf model parent → Reachable model id

/-- The default scene, its roots and the children of every node are in range. -/
def NodesInRange (model : Model) : Prop :=
  InBounds model.scenes model.defaultScene ∧
  (∀ id ∈ roots model, InBounds model.nodes id) ∧
  (∀ node ∈ model.nodes, ∀ id ∈ node.children, InBounds model.nodes id)

/-- Every node names a mesh of the model. -/
def MeshesInRange (model : Model) : Prop :=
  ∀ node ∈ model.nodes, InBounds model.meshes node.mesh

/-- The index accessor and the attribute accessors of every primitive are in
range, and so is the buffer view of every accessor. -/
def AccessorsInRange (model : Model) : Prop :=
  (∀ mesh ∈ model.meshes, ∀ primitive ∈ mesh.primitives,
    InBounds model.accessors primitive.indices ∧
    ∀ attr ∈ primitive.attributes, InBounds model.accessors attr.2) ∧
  (∀ accessor ∈ model.accessors, InBounds model.bufferViews accessor.bufferView)

/-- The bytes of the buffer view lie inside its buffer. -/
def BytesInRange (model : Model) (bufferView : BufferView) : Prop :=
  match at? model.buffers bufferView.buffer with
  | some buffer =>
    bufferView.byteOffset < buffer.data.length ∧
    bufferView.byteOffset + bufferView.byteLength ≤ buffer.data.length
  | none => False

instance (model : Model) (bufferView : BufferView) :
    Decidable (BytesInRange model bufferView) := by
  unfold BytesInRange; split <;> infer_instance

/-- Every buffer view that is uploaded names a buffer and bytes inside it. -/
def BuffersInRange (model : Model) : Prop :=
  ∀ bufferView ∈ model.bufferViews, bufferView.target ≠ 0 → BytesInRange model bufferView

/-- Every index the bind walk follows is in range. -/
def InRange (model : Model) : Prop :=
  NodesInRange model ∧ AccessorsInRange model ∧ BuffersInRange model

instance (model : Model) : Decidable (NodesInRange model) := by
  unfold NodesInRange; infer_instance
instance (model : Model) : Decidable (MeshesInRange model) := by
  unfold MeshesInRange; infer_instance
instance (model : Model) : Decidable (AccessorsInRange model) := by
  unfold AccessorsInRange; infer_instance
instance (model : Model) : Decidable (BuffersInRange model) := by
  unfold BuffersInRange; infer_instance
instance (model : Model) : Decidable (InRange model) := by
  unfold InRange; infer_instance

/-- No cycle among the reachable nodes: `rank` decreases from every reachable
node to each of its children. -/
def Acyclic (model : Model) (rank : Int → Nat) : Prop :=
  ∀ parent, Reachable model parent → ∀ id ∈ childrenOf model parent, rank id < rank parent

/-- The reachable nodes form a tree: no cycle, and no node is listed more than
once among the roots and the children of the reachable nodes. -/
structure IsTree (model : Model) (rank : Int → Nat) : Prop where
  acyclic : Acyclic model rank
  rootsNodup : (roots model).Nodup
  childrenNodup : ∀ parent, Reachable model parent → (childrenOf model parent).Nodup
  oneParent : ∀ p q, Reachable model p → Reachable model q →
    ∀ id, id ∈ childrenOf model p → id ∈ childrenOf model q → p = q
  rootNotChild : ∀ parent, Reachable model parent →
    ∀ id ∈ childrenOf model parent, id ∉ roots model

/-- The map holds the buffer view of the index accessor of every primitive. -/
def LookupsSucceed (ebos : Vbos) (model : Model) : Prop :=
  ∀ mesh ∈ model.meshes, ∀ primitive ∈ mesh.primitives,
    ∀ accessor ∈ at? model.accessors primitive.indices,
      mapFind ebos accessor.bufferView ≠ none

instance (ebos : Vbos) (model : Model) : Decidable (LookupsSucceed ebos model) := by
  unfold LookupsSucceed; infer_instance

/-! ## Reading a trace -/

/-- The `glDrawElements` calls of a trace. -/
def drawCalls (calls : List GLCall) : List GLCall :=
  calls.filter (fun c => match c with | .drawElements _ _ _ _ => true | _ => false)

/-- The nodes a walk entered, in order. -/
def entered (calls : List GLCall) : List Int :=
  calls.filterMap (fun c => match c with | .enterNode id => some id | _ => none)

/-- The handles `glGenBuffers` handed out, in order. -/
def generated (calls : List GLCall) : List GLuint :=
  calls.filterMap (fun c => match c with | .genBuffers h => some h | _ => none)

/-- The handles passed to `glDeleteBuffers`, in order. -/
def deleted (calls : List GLCall) : List GLuint :=
  calls.filterMap (fun c => match c with | .deleteBuffers h => some h | _ => none)

/-- Depth-first pre-order from the nodes `ids`, each node before its children,
roots and children in their listed order, down to depth `fuel`. -/
def preorder (model : Model) : Nat → List Int → List Int
  | 0, _ => []
  | fuel + 1, ids => ids.flatMap (fun id => id :: preorder model fuel (childrenOf model id))

/-- The number of buffers `bindBufferViews` generates before it reaches buffer
view `i`: the buffer views before `i` with a target. -/
def generatedBefore (model : Model) (i : Int) : Nat :=
  ((model.bufferViews.take i.toNat).filter (fun v => decide (v.target ≠ 0))).length

/-- The handle `bindBufferViews` generates for buffer view `i`. -/
def handleOf (names : Nat → GLuint) (model : Model) (i : Int) : GLuint :=
  names (generatedBefore model i)

/-- The target of buffer view `i` is `GL_ELEMENT_ARRAY_BUFFER`. -/
def isIndexView (model : Model) (i : Int) : Bool :=
  match at? model.bufferViews i with
  | some bufferView => decide (bufferView.target = GL_ELEMENT_ARRAY_BUFFER)
  | none => false

/-! ## Specification vocabulary -/

/-- The keys of the map are strictly ascending, as `std::map` keeps them. -/
def KeysSorted (m : Vbos) : Prop := (m.map Prod.fst).Pairwise (· < ·)

/-- The attribute location of a semantic name: 0 for `POSITION`, 1 for `NORMAL`,
2 for `TEXCOORD_0`, none for every other name. -/
def attributeLocation (name : String) : Option Int :=
  if name = "POSITION" then some 0
  else if name = "NORMAL" then some 1
  else if name = "TEXCOORD_0" then some 2
  else none

/-- The calls that bind one attribute `(name, accessorId)` of a primitive, `vbos`
being the map on entry to `bindMesh`: nothing for an unknown name, and else a
bind of the handle stored for the buffer view of the accessor (`0` if none is
stored), the enabling of the location and the attribute pointer. -/
def attributeCalls (byteStride : Accessor → BufferView → Int) (vbos : Vbos)
    (model : Model) (attr : String × Int) : List GLCall :=
  match attributeLocation attr.1, at? model.accessors attr.2 with
  | some location, some accessor =>
    match at? model.bufferViews accessor.bufferView with
    | some bufferView =>
      [GLCall.bindBuffer GL_ARRAY_BUFFER ((mapFind vbos accessor.bufferView).getD 0),
       GLCall.enableVertexAttribArray location,
       GLCall.vertexAttribPointer location (componentCount accessor.type)
         accessor.componentType accessor.normalized (byteStride accessor bufferView)
         accessor.byteOffset]
    | none => []
  | _, _ => []

/-- The map `out` is `vbos` with, at most, new entries of handle `0` at buffer
views in range: what the reads `vbos[key]` of `bindMesh` do to the map. -/
def Grows (model : Model) (vbos out : Vbos) : Prop :=
  (KeysSorted vbos → KeysSorted out) ∧
  ∀ j, mapFind out j = mapFind vbos j ∨
    (mapFind vbos j = none ∧ mapFind out j = some 0 ∧ InBounds model.bufferViews j)

/-- The outcome of a walk: it did not run out of fuel, and if it ran to its end
the nodes it entered are `order`. -/
def Walked {α : Type} (order : List Int) (callsOf : α → List GLCall)
    (r : Except Err α) : Prop :=
  match r with
  | .ok a => entered (callsOf a) = order
  | .error e => e ≠ .outOfFuel

/-- The draw call of one primitive: its mode and the count (as a `GLsizei`),
component type and byte offset of its index accessor. -/
def primitiveDraw (model : Model) (primitive : Primitive) : List GLCall :=
  match at? model.accessors primitive.indices with
  | some accessor =>
    [GLCall.drawElements primitive.mode (toGLsizei accessor.count)
      accessor.componentType accessor.byteOffset]
  | none => []

/-- The draw calls of the node `id`: one per primitive of its mesh, in order. -/
def nodeDraws (model : Model) (id : Int) : List GLCall :=
  match at? model.nodes id with
  | some node =>
    match at? model.meshes node.mesh with
    | some mesh => mesh.primitives.flatMap (primitiveDraw model)
    | none => []
  | none => []

/-- The nodes `ids` are reachable and of rank below `fuel`. -/
def Within (model : Model) (rank : Int → Nat) (fuel : Nat) (ids : List Int) : Prop :=
  ∀ id ∈ ids, Reachable model id ∧ rank id < fuel

/-- What the draw walk needs of the meshes: every node names a mesh, the index
accessor of every primitive is in range and the map holds its buffer view. -/
def Drawable (ebos : Vbos) (model : Model) : Prop :=
  MeshesInRange model ∧
  (∀ mesh ∈ model.meshes, ∀ primitive ∈ mesh.primitives,
    InBounds model.accessors primitive.indices) ∧
  LookupsSucceed ebos model

/-- The node `x` is `r` or lies below it. -/
inductive Descends (model : Model) (r : Int) : Int → Prop where
  | refl : Descends model r r
  | step {y x : Int} : Descends model r y → x ∈ childrenOf model y → Descends model r x

/-- No member of `ids` has a parent below a member of `ids`. -/
def NoParentBelow (model : Model) (ids : List Int) : Prop :=
  ∀ r ∈ ids, ∀ q, Reachable model q → r ∈ childrenOf model q →
    ∀ y ∈ ids, ¬ Descends model y q

/-- The calls that generate the buffer `handle` and fill it with `bytes`, the
bytes of the buffer view `view`. -/
def uploadCalls (handle : GLuint) (view : BufferView) (bytes : List Nat) : List GLCall :=
  [GLCall.genBuffers handle,
   GLCall.bindBuffer view.target handle,
   GLCall.bufferData view.target view.byteLength bytes GL_STATIC_DRAW,
   GLCall.bindBuffer view.target 0]

/-- The bytes of a buffer view inside its buffer. -/
def viewBytes (model : Model) (view : BufferView) : List Nat :=
  match at? model.buffers view.buffer with
  | some buffer => (buffer.data.drop view.byteOffset).take view.byteLength
  | none => []

/-- The number of buffer views with a target among `views`. -/
def targeted (views : List BufferView) : Nat :=
  (views.filter (fun v => decide (v.target ≠ 0))).length

/-- What is known of the map from the end of `bindBufferViews` to the last loop
of `bindModel`: the keys are sorted, every buffer view with a target has its
generated handle, and every other entry sits at a buffer view without target
and holds the handle `0`. -/
structure Settled (names : Nat → GLuint) (model : Model) (m : Vbos) : Prop where
  sorted : KeysSorted m
  uploaded : ∀ i v, at? model.bufferViews i = some v → v.target ≠ 0 →
    mapFind m i = some (handleOf names model i)
  other : ∀ i h, mapFind m i = some h →
    ∃ v, at? model.bufferViews i = some v ∧ (v.target = 0 → h = 0)

/-- Every index lookup of the draw walk at the node `id` finds its buffer view
in the map. -/
def NodeLookupsSucceed (ebos : Vbos) (model : Model) (id : Int) : Prop :=
  ∀ node ∈ at? model.nodes id, ∀ mesh ∈ at? model.meshes node.mesh,
    ∀ primitive ∈ mesh.primitives, ∀ accessor ∈ at? model.accessors primitive.indices,
      mapFind ebos accessor.bufferView ≠ none

/-- The two outcomes of a draw walk over the nodes `order` on a model in range:
it runs to its end and every lookup succeeded, or it raises `out_of_range` and
the lookup failed at one of the nodes. -/
def DrawOutcome (ebos : Vbos) (model : Model) (order : List Int)
    (r : Except Err (List GLCall)) : Prop :=
  ((∃ calls, r = .ok calls) ∧ ∀ x ∈ order, NodeLookupsSucceed ebos model x) ∨
  (r = .error .outOfRange ∧ ∃ x ∈ order, ¬ NodeLookupsSucceed ebos model x)

/-- The number of primitives of the mesh of node `id`. -/
def primitiveCount (model : Model) (id : Int) : Nat :=
  match at? model.nodes id with
  | some node =>
    match at? model.meshes node.mesh with
    | some mesh => mesh.primitives.length
    | none => 0
  | none => 0

/-- The map holds the generated handle of every buffer view with a target. -/
def Uploaded (names : Nat → GLuint) (model : Model) (m : Vbos) : Prop :=
  ∀ i v, at? model.bufferViews i = some v → v.target ≠ 0 →
    mapFind m i = some (handleOf names model i)

/-- The buffer view of the index accessor of every primitive has the target
`GL_ELEMENT_ARRAY_BUFFER`. -/
def IndexViewsTargeted (model : Model) : Prop :=
  ∀ mesh ∈ model.meshes, ∀ primitive ∈ mesh.primitives,
    ∀ accessor ∈ at? model.accessors primitive.indices,
      isIndexView model accessor.bufferView = true

instance (model : Model) : Decidable (IndexViewsTargeted model) := by
  unfold IndexViewsTargeted; infer_instance

/-! ### Concrete models -/

/-- The buffer names a driver hands out: 1, 2, 3, ... -/
def sampleNames (k : Nat) : GLuint := k + 1

/-- A stride function standing for tightly packed three-float vectors. -/
def sampleStride (_ : Accessor) (_ : BufferView) : Int := 12

/-- A well-formed model: a root with two children, one mesh whose primitive has
a normal and a position, a vertex buffer view and an index buffer view. -/
def sampleModel : Model :=
  { accessors := [⟨0, 0, false, 5126, 3, 3⟩, ⟨1, 0, false, 5123, 3, 65⟩,
                  ⟨0, 2, false, 5126, 3, 3⟩],
    buffers := [⟨[10, 11, 12, 13, 14, 15, 16, 17]⟩],
    bufferViews := [⟨0, 0, 4, 34962⟩, ⟨0, 4, 4, 34963⟩],
    meshes := [⟨[⟨[("NORMAL", 2), ("POSITION", 0)], 1, 4⟩]⟩],
    nodes := [⟨0, [1, 2]⟩, ⟨0, []⟩, ⟨0, []⟩],
    scenes := [⟨[0]⟩],
    defaultScene := 0 }

def sampleRank (id : Int) : Nat := if id = 0 then 1 else 0

/-- The buffer view of the positions has no target (glTF leaves the target
optional; tinygltf then stores 0). -/
def untargetedModel : Model :=
  { accessors := [⟨0, 0, false, 5126, 3, 3⟩, ⟨1, 0, false, 5123, 3, 65⟩],
    buffers := [⟨[10, 11, 12, 13, 14, 15, 16, 17]⟩],
    bufferViews := [⟨0, 0, 4, 0⟩, ⟨0, 4, 4, 34963⟩],
    meshes := [⟨[⟨[("POSITION", 0)], 1, 4⟩]⟩],
    nodes := [⟨0, []⟩],
    scenes := [⟨[0]⟩],
    defaultScene := 0 }

/-- The buffer view of the indices has no target. -/
def untargetedIndexModel : Model :=
  { accessors := [⟨0, 0, false, 5126, 3, 3⟩, ⟨1, 0, false, 5123, 3, 65⟩],
    buffers := [⟨[10, 11, 12, 13, 14, 15, 16, 17]⟩],
    bufferViews := [⟨0, 0, 4, 34962⟩, ⟨0, 4, 4, 0⟩],
    meshes := [⟨[⟨[("POSITION", 0)], 1, 4⟩]⟩],
    nodes := [⟨0, []⟩],
    scenes := [⟨[0]⟩],
    defaultScene := 0 }

/-- A root and its child, both with the one mesh, whose index accessor lies in a
buffer view without target. -/
def untargetedIndexTree : Model :=
  { accessors := [⟨0, 0, false, 5126, 3, 3⟩, ⟨1, 0, false, 5123, 3, 65⟩],
    buffers := [⟨[10, 11, 12, 13, 14, 15, 16, 17]⟩],
    bufferViews := [⟨0, 0, 4, 34962⟩, ⟨0, 4, 4, 0⟩],
    meshes := [⟨[⟨[("POSITION", 0)], 1, 4⟩]⟩],
    nodes := [⟨0, [1]⟩, ⟨0, []⟩],
    scenes := [⟨[0]⟩],
    defaultScene := 0 }

/-- One node whose primitive has an index accessor with a count of 2^32 + 3. -/
def hugeCountModel : Model :=
  { accessors := [⟨0, 0, false, 5126, 3, 3⟩, ⟨1, 0, false, 5123, 4294967299, 65⟩],
    buffers := [⟨[10, 11, 12, 13, 14, 15, 16, 17]⟩],
    bufferViews := [⟨0, 0, 4, 34962⟩, ⟨0, 4, 4, 34963⟩],
    meshes := [⟨[⟨[("POSITION", 0)], 1, 4⟩]⟩],
    nodes := [⟨0, []⟩],
    scenes := [⟨[0]⟩],
    defaultScene := 0 }

/-- A root with two children and two meshes whose primitives differ in mode and
index accessor: the root and the second child draw mesh 0 (one primitive), the
first child draws mesh 1 (two primitives). -/
def orderedModel : Model :=
  { accessors := [⟨0, 0, false, 5126, 3, 3⟩, ⟨1, 0, false, 5123, 3, 65⟩,
                  ⟨1, 2, false, 5125, 6, 65⟩],
    buffers := [⟨[10, 11, 12, 13, 14, 15, 16, 17]⟩],
    bufferViews := [⟨0, 0, 4, 34962⟩, ⟨0, 4, 4, 34963⟩],
    meshes := [⟨[⟨[("POSITION", 0)], 1, 4⟩]⟩,
               ⟨[⟨[("POSITION", 0)], 2, 1⟩, ⟨[("POSITION", 0)], 1, 0⟩]⟩],
    nodes := [⟨0, [1, 2]⟩, ⟨1, []⟩, ⟨0, []⟩],
    scenes := [⟨[0]⟩],
    defaultScene := 0 }

/-- The root has no mesh (`mesh = -1`) and one child with a mesh. -/
def meshlessModel : Model :=
  { accessors := [⟨0, 0, false, 5126, 3, 3⟩, ⟨1, 0, false, 5123, 3, 65⟩],
    buffers := [⟨[10, 11, 12, 13, 14, 15, 16, 17]⟩],
    bufferViews := [⟨0, 0, 4, 34962⟩, ⟨0, 4, 4, 34963⟩],
    meshes := [⟨[⟨[("POSITION", 0)], 1, 4⟩]⟩],
    nodes := [⟨-1, [1]⟩, ⟨0, []⟩],
    scenes := [⟨[0]⟩],
    defaultScene := 0 }

/-- One mesh with two primitives whose positions start at different offsets. -/
def twoPrimitiveModel : Model :=
  { accessors := [⟨0, 0, false, 5126, 3, 3⟩, ⟨0, 36, false, 5126, 3, 3⟩,
                  ⟨1, 0, false, 5123, 3, 65⟩, ⟨1, 6, false, 5123, 3, 65⟩],
    buffers := [⟨[10, 11, 12, 13, 14, 15, 16, 17]⟩],
    bufferViews := [⟨0, 0, 4, 34962⟩, ⟨0, 4, 4, 34963⟩],
    meshes := [⟨[⟨[("POSITION", 0)], 2, 4⟩, ⟨[("POSITION", 1)], 3, 4⟩]⟩],
    nodes := [⟨0, []⟩],
    scenes := [⟨[0]⟩],
    defaultScene := 0 }

/-! ## Theorems -/

/-! ### Vectors and the map -/

theorem at?_inBounds {α : Type} {xs : List α} {i : Int} {x : α}
    (h : at? xs i = some x) : InBounds xs i := by
  unfold at? at h
  split at h
  · rename_i h0
    have hlt := (List.getElem?_eq_some_iff.mp h).1
    exact ⟨h0, by omega⟩
  · cases h

theorem at?_mem {α : Type} {xs : List α} {i : Int} {x : α}
    (h : at? xs i = some x) : x ∈ xs := by
  unfold at? at h
  split at h
  · exact List.getElem?_mem h
  · cases h

theorem at?_of_inBounds {α : Type} {xs : List α} {i : Int}
    (h : InBounds xs i) : ∃ x, at? xs i = some x := by
  obtain ⟨h0, h1⟩ := h
  have hlt : i.toNat < xs.length := by omega
  exact ⟨xs[i.toNat], by simp [at?, h0, List.getElem?_eq_getElem hlt]⟩

theorem index_of_at? {α : Type} {xs : List α} {i : Int} {x : α}
    (h : at? xs i = some x) : index xs i = .ok x := by
  simp [index, h]

theorem index_ne_outOfFuel {α : Type} (xs : List α) (i : Int) :
    index xs i ≠ .error .outOfFuel := by
  unfold index; split <;> simp

theorem index_eq_ok {α : Type} {xs : List α} {i : Int} {x : α}
    (h : index xs i = .ok x) : at? xs i = some x := by
  unfold index at h; split at h
  · rename_i y hy; cases h; exact hy
  · cases h

theorem mapFind_mapInsert_self (m : Vbos) (key : Int) (value : GLuint) :
    mapFind (mapInsert m key value) key = some value := by
  induction m with
  | nil => simp [mapInsert, mapFind]
  | cons e rest ih =>
    obtain ⟨k, v⟩ := e
    unfold mapInsert
    split
    · simp [mapFind]
    · split
      · simp [mapFind]
      · rename_i h1 h2
        simp [mapFind, h2, ih]

theorem mapFind_mapInsert_ne (m : Vbos) (key : Int) (value : GLuint) (j : Int)
    (h : j ≠ key) : mapFind (mapInsert m key value) j = mapFind m j := by
  induction m with
  | nil => simp [mapInsert, mapFind, h]
  | cons e rest ih =>
    obtain ⟨k, v⟩ := e
    unfold mapInsert
    split
    · simp [mapFind, h]
    · split
      · rename_i h1 h2
        subst h2
        simp [mapFind, h]
      · simp [mapFind, ih]

theorem mem_keys_mapInsert (m : Vbos) (key : Int) (value : GLuint) (j : Int) :
    j ∈ (mapInsert m key value).map Prod.fst ↔ j = key ∨ j ∈ m.map Prod.fst := by
  induction m with
  | nil => simp [mapInsert]
  | cons e rest ih =>
    obtain ⟨k, v⟩ := e
    unfold mapInsert
    split
    · simp
    · split
      · rename_i h1 h2
        subst h2
        simp
      · simp only [List.map_cons, List.mem_cons, ih]
        tauto

theorem keysSorted_mapInsert (m : Vbos) (key : Int) (value : GLuint)
    (h : KeysSorted m) : KeysSorted (mapInsert m key value) := by
  induction m with
  | nil => simp [mapInsert, KeysSorted]
  | cons e rest ih =>
    obtain ⟨k, v⟩ := e
    unfold KeysSorted at h ih ⊢
    simp only [List.map_cons, List.pairwise_cons] at h
    unfold mapInsert
    split
    · rename_i hlt
      simp only [List.map_cons, List.pairwise_cons, List.mem_cons]
      refine ⟨?_, h.1, h.2⟩
      rintro a (rfl | ha)
      · exact hlt
      · exact lt_trans hlt (h.1 a ha)
    · split
      · rename_i h1 h2
        subst h2
        simp only [List.map_cons, List.pairwise_cons]
        exact h
      · rename_i h1 h2
        simp only [List.map_cons, List.pairwise_cons]
        refine ⟨?_, ih h.2⟩
        intro a ha
        rcases (mem_keys_mapInsert rest key value a).mp ha with rfl | ha
        · omega
        · exact h.1 a ha

theorem mapFind_some_mem {m : Vbos} {key : Int} {v : GLuint}
    (h : mapFind m key = some v) : (key, v) ∈ m := by
  induction m with
  | nil => simp [mapFind] at h
  | cons e rest ih =>
    obtain ⟨k, w⟩ := e
    unfold mapFind at h
    split at h
    · rename_i hk; cases h; subst hk; simp
    · exact List.mem_cons_of_mem _ (ih h)

theorem mapFind_of_mem {m : Vbos} {key : Int} {v : GLuint} (hs : KeysSorted m)
    (h : (key, v) ∈ m) : mapFind m key = some v := by
  induction m with
  | nil => simp at h
  | cons e rest ih =>
    obtain ⟨k, w⟩ := e
    unfold KeysSorted at hs ih
    simp only [List.map_cons, List.pairwise_cons] at hs
    unfold mapFind
    rcases List.mem_cons.mp h with heq | hmem
    · cases heq; simp
    · have hlt := hs.1 key (List.mem_map.mpr ⟨(key, v), hmem, rfl⟩)
      have : key ≠ k := by omega
      simp [this, ih hs.2 hmem]

/-! ### The attribute loop of `bindMesh` -/

theorem Grows.refl (model : Model) (vbos : Vbos) : Grows model vbos vbos :=
  ⟨id, fun _ => Or.inl rfl⟩

theorem Grows.trans {model : Model} {a b c : Vbos} (h1 : Grows model a b)
    (h2 : Grows model b c) : Grows model a c := by
  refine ⟨fun h => h2.1 (h1.1 h), fun j => ?_⟩
  rcases h2.2 j with h | ⟨hb, hc, hin⟩
  · rcases h1.2 j with h' | ⟨ha, hb', hin⟩
    · exact Or.inl (h.trans h')
    · exact Or.inr ⟨ha, h.trans hb', hin⟩
  · rcases h1.2 j with h' | ⟨ha, hb', _⟩
    · exact Or.inr ⟨h'.symm.trans hb, hc, hin⟩
    · rw [hb] at hb'; cases hb'

theorem Grows.getD {model : Model} {a b : Vbos} (h : Grows model a b) (j : Int) :
    (mapFind b j).getD 0 = (mapFind a j).getD 0 := by
  rcases h.2 j with h | ⟨ha, hb, _⟩
  · rw [h]
  · rw [ha, hb]; rfl

theorem mapIndex_fst (m : Vbos) (key : Int) :
    (mapIndex m key).1 = (mapFind m key).getD 0 := by
  unfold mapIndex; split <;> rename_i h <;> simp [h]

theorem grows_mapIndex (model : Model) (m : Vbos) (key : Int)
    (h : InBounds model.bufferViews key) : Grows model m (mapIndex m key).2 := by
  unfold mapIndex
  split
  · exact Grows.refl model m
  · rename_i hnone
    refine ⟨fun hs => keysSorted_mapInsert m key 0 hs, fun j => ?_⟩
    by_cases hj : j = key
    · subst hj
      exact Or.inr ⟨hnone, mapFind_mapInsert_self m j 0, h⟩
    · exact Or.inl (mapFind_mapInsert_ne m key 0 j hj)

theorem Grows.keeps {model : Model} {a b : Vbos} (h : Grows model a b) {j : Int}
    {v : GLuint} (hj : mapFind a j = some v) : mapFind b j = some v := by
  rcases h.2 j with h1 | ⟨h1, _, _⟩
  · rw [h1]; exact hj
  · rw [hj] at h1; cases h1

theorem mapFind_mapIndex_self (m : Vbos) (key : Int) :
    mapFind (mapIndex m key).2 key = some ((mapFind m key).getD 0) := by
  unfold mapIndex
  split
  · rename_i v hv
    simp [hv]
  · rename_i hnone
    simp [hnone, mapFind_mapInsert_self]

theorem attributeCalls_congr (byteStride : Accessor → BufferView → Int) (model : Model)
    {a b : Vbos} (h : ∀ j, (mapFind b j).getD 0 = (mapFind a j).getD 0)
    (attr : String × Int) :
    attributeCalls byteStride b model attr = attributeCalls byteStride a model attr := by
  unfold attributeCalls
  split
  · split
    · rw [h]
    · rfl
  · rfl

theorem bindMeshAttributes_ok (byteStride : Accessor → BufferView → Int) (model : Model)
    (attrs : List (String × Int)) (vbos : Vbos)
    (h : ∀ attr ∈ attrs, attributeLocation attr.1 ≠ none →
      ∃ accessor, at? model.accessors attr.2 = some accessor ∧
        InBounds model.bufferViews accessor.bufferView) :
    ∃ out, bindMeshAttributes byteStride model attrs vbos
        = .ok (out, attrs.flatMap (attributeCalls byteStride vbos model)) ∧
      Grows model vbos out ∧
      ∀ attr ∈ attrs, attributeLocation attr.1 ≠ none →
        ∀ accessor, at? model.accessors attr.2 = some accessor →
          mapFind out accessor.bufferView
            = some ((mapFind vbos accessor.bufferView).getD 0) := by
  induction attrs generalizing vbos with
  | nil => exact ⟨vbos, rfl, Grows.refl model vbos, by simp⟩
  | cons attr rest ih =>
    obtain ⟨name, accessorId⟩ := attr
    have hrest : ∀ attr ∈ rest, attributeLocation attr.1 ≠ none →
        ∃ accessor, at? model.accessors attr.2 = some accessor ∧
          InBounds model.bufferViews accessor.bufferView :=
      fun a ha => h a (List.mem_cons_of_mem _ ha)
    cases hloc : attributeLocation name with
    | none =>
      obtain ⟨out, hout, hg, hread⟩ := ih vbos hrest
      refine ⟨out, ?_, hg, ?_⟩
      rotate_left
      · intro attr hattr hl accessor hacc
        rcases List.mem_cons.mp hattr with heq | hmem
        · subst heq; exact absurd hloc hl
        · exact hread attr hmem hl accessor hacc
      have hvaa : (if name = "POSITION" then (0 : Int) else if name = "NORMAL" then 1
          else if name = "TEXCOORD_0" then 2 else -1) = -1 := by
        unfold attributeLocation at hloc
        split at hloc; · cases hloc
        split at hloc; · cases hloc
        split at hloc; · cases hloc
        simp [*]
      unfold bindMeshAttributes
      simp only [hvaa, if_true, List.flatMap_cons]
      rw [hout]
      simp [attributeCalls, hloc]
    | some location =>
      obtain ⟨accessor, hacc, hin⟩ := h (name, accessorId) (List.mem_cons_self _ _)
        (by simp [hloc])
      obtain ⟨bufferView, hbv⟩ := at?_of_inBounds hin
      have hg1 := grows_mapIndex model vbos accessor.bufferView hin
      obtain ⟨out, hout, hg, hread⟩ := ih (mapIndex vbos accessor.bufferView).2 hrest
      refine ⟨out, ?_, hg1.trans hg, ?_⟩
      rotate_left
      · intro attr hattr hl acc1 hacc1
        rcases List.mem_cons.mp hattr with heq | hmem
        · subst heq
          rw [hacc] at hacc1
          cases hacc1
          exact hg.keeps (mapFind_mapIndex_self vbos accessor.bufferView)
        · rw [hread attr hmem hl acc1 hacc1, hg1.getD]
      have hvaa : (if name = "POSITION" then (0 : Int) else if name = "NORMAL" then 1
          else if name = "TEXCOORD_0" then 2 else -1) = location ∧ location ≠ -1 := by
        unfold attributeLocation at hloc
        split at hloc
        · cases hloc; simp [*]
        split at hloc
        · cases hloc; simp [*]
        split at hloc
        · cases hloc; simp [*]
        cases hloc
      unfold bindMeshAttributes
      simp only [hvaa.1, hvaa.2, if_false, List.flatMap_cons, index_of_at? hacc,
        index_of_at? hbv, bind, Except.bind, hout, pure, Except.pure]
      have hc : attributeCalls byteStride (mapIndex vbos accessor.bufferView).2 model
          = attributeCalls byteStride vbos model :=
        funext (attributeCalls_congr byteStride model (fun j => hg1.getD j))
      simp [attributeCalls, hloc, hacc, hbv, mapIndex_fst, componentCount, hc]

/-! ### Meshes: binding and drawing -/

theorem entered_append (a b : List GLCall) : entered (a ++ b) = entered a ++ entered b := by
  simp [entered, List.filterMap_append]

theorem drawCalls_append (a b : List GLCall) :
    drawCalls (a ++ b) = drawCalls a ++ drawCalls b := by
  simp [drawCalls, List.filter_append]

theorem entered_attributeCalls (byteStride : Accessor → BufferView → Int) (vbos : Vbos)
    (model : Model) (attr : String × Int) :
    entered (attributeCalls byteStride vbos model attr) = [] := by
  unfold attributeCalls
  split
  · split <;> simp [entered]
  · simp [entered]

theorem bindMeshPrimitives_ok (byteStride : Accessor → BufferView → Int) (model : Model)
    (primitives : List Primitive) (vbos : Vbos)
    (hidx : ∀ p ∈ primitives, InBounds model.accessors p.indices)
    (h : ∀ p ∈ primitives, ∀ attr ∈ p.attributes, attributeLocation attr.1 ≠ none →
      ∃ accessor, at? model.accessors attr.2 = some accessor ∧
        InBounds model.bufferViews accessor.bufferView) :
    ∃ out, bindMeshPrimitives byteStride model primitives vbos
        = .ok (out, primitives.flatMap
            (fun p => p.attributes.flatMap (attributeCalls byteStride vbos model))) ∧
      Grows model vbos out ∧
      ∀ p ∈ primitives, ∀ attr ∈ p.attributes, attributeLocation attr.1 ≠ none →
        ∀ accessor, at? model.accessors attr.2 = some accessor →
          mapFind out accessor.bufferView
            = some ((mapFind vbos accessor.bufferView).getD 0) := by
  induction primitives generalizing vbos with
  | nil => exact ⟨vbos, rfl, Grows.refl model vbos, by simp⟩
  | cons p rest ih =>
    obtain ⟨idx, hidx0⟩ := at?_of_inBounds (hidx p (List.mem_cons_self _ _))
    obtain ⟨out1, h1, hg1, hr1⟩ := bindMeshAttributes_ok byteStride model p.attributes vbos
      (h p (List.mem_cons_self _ _))
    obtain ⟨out2, h2, hg2, hr2⟩ := ih out1
      (fun q hq => hidx q (List.mem_cons_of_mem _ hq))
      (fun q hq => h q (List.mem_cons_of_mem _ hq))
    refine ⟨out2, ?_, hg1.trans hg2, ?_⟩
    rotate_left
    · intro q hq attr hattr hl accessor hacc
      rcases List.mem_cons.mp hq with heq | hmem
      · subst heq
        exact hg2.keeps (hr1 attr hattr hl accessor hacc)
      · rw [hr2 q hmem attr hattr hl accessor hacc, hg1.getD]
    have hc : attributeCalls byteStride out1 model = attributeCalls byteStride vbos model :=
      funext (attributeCalls_congr byteStride model (fun j => hg1.getD j))
    unfold bindMeshPrimitives
    simp only [index_of_at? hidx0, bind, Except.bind, h1, h2, pure, Except.pure,
      List.flatMap_cons, hc]

theorem Walked.ne {α : Type} {order : List Int} {callsOf : α → List GLCall}
    {r : Except Err α} (h : Walked order callsOf r) : r ≠ .error .outOfFuel := by
  cases r with
  | error e => intro he; cases he; exact h rfl
  | ok a => simp

theorem Walked.ok {α : Type} {order : List Int} {callsOf : α → List GLCall}
    {r : Except Err α} (h : Walked order callsOf r) {a : α} (ha : r = .ok a) :
    entered (callsOf a) = order := by
  subst ha; exact h

theorem walked_bind {α β : Type} {order : List Int} {callsOf : β → List GLCall}
    (r : Except Err α) (f : α → Except Err β) (hr : r ≠ .error .outOfFuel)
    (hf : ∀ a, r = .ok a → Walked order callsOf (f a)) :
    Walked order callsOf (r >>= f) := by
  cases r with
  | error e =>
    simp only [bind, Except.bind, Walked]
    intro he; exact hr (by rw [he])
  | ok a => exact hf a rfl

theorem walked_pure {α : Type} {order : List Int} {callsOf : α → List GLCall} (a : α)
    (h : entered (callsOf a) = order) :
    Walked order callsOf (pure a : Except Err α) := h

theorem bindMeshAttributes_quiet (byteStride : Accessor → BufferView → Int) (model : Model)
    (attrs : List (String × Int)) (vbos : Vbos) :
    Walked [] Prod.snd (bindMeshAttributes byteStride model attrs vbos) := by
  induction attrs generalizing vbos with
  | nil => simp [bindMeshAttributes, Walked, entered]
  | cons attr rest ih =>
    obtain ⟨name, accessorId⟩ := attr
    unfold bindMeshAttributes
    simp only []
    generalize (if name = "POSITION" then (0 : Int) else if name = "NORMAL" then 1
      else if name = "TEXCOORD_0" then 2 else -1) = vaa
    split
    · exact ih vbos
    · refine walked_bind _ _ (index_ne_outOfFuel _ _) (fun accessor _ => ?_)
      refine walked_bind _ _ (index_ne_outOfFuel _ _) (fun bufferView _ => ?_)
      refine walked_bind _ _ (ih _).ne (fun r hr => ?_)
      obtain ⟨out, calls⟩ := r
      have := (ih _).ok hr
      simp only [] at this
      exact walked_pure _ (by
        show entered (_ ++ calls) = []
        rw [entered_append, this]; rfl)

theorem bindMeshPrimitives_quiet (byteStride : Accessor → BufferView → Int) (model : Model)
    (primitives : List Primitive) (vbos : Vbos) :
    Walked [] Prod.snd (bindMeshPrimitives byteStride model primitives vbos) := by
  induction primitives generalizing vbos with
  | nil => simp [bindMeshPrimitives, Walked, entered]
  | cons p rest ih =>
    unfold bindMeshPrimitives
    refine walked_bind _ _ (index_ne_outOfFuel _ _) (fun accessor _ => ?_)
    have ha := bindMeshAttributes_quiet byteStride model p.attributes vbos
    refine walked_bind _ _ ha.ne (fun r hr => ?_)
    obtain ⟨out, calls⟩ := r
    have h1 := ha.ok hr
    refine walked_bind _ _ (ih out).ne (fun r2 hr2 => ?_)
    obtain ⟨out2, more⟩ := r2
    have h2 := (ih out).ok hr2
    simp only [] at h1 h2
    exact walked_pure _ (by simp [entered_append, h1, h2])

theorem drawModelPrimitives_ok (ebos : Vbos) (model : Model) (primitives : List Primitive)
    (h : ∀ p ∈ primitives, ∃ accessor, at? model.accessors p.indices = some accessor ∧
      mapFind ebos accessor.bufferView ≠ none) :
    ∃ calls, drawModelPrimitives ebos model primitives = .ok calls ∧
      drawCalls calls = primitives.flatMap (primitiveDraw model) := by
  induction primitives with
  | nil => exact ⟨[], rfl, rfl⟩
  | cons p rest ih =>
    obtain ⟨accessor, hacc, hfind⟩ := h p (List.mem_cons_self _ _)
    obtain ⟨calls, hc, hd⟩ := ih (fun q hq => h q (List.mem_cons_of_mem _ hq))
    obtain ⟨ebo, hebo⟩ := Option.ne_none_iff_exists'.mp hfind
    refine ⟨RaiiBindBuffer GL_ELEMENT_ARRAY_BUFFER ebo
      [GLCall.drawElements p.mode (toGLsizei accessor.count) accessor.componentType
        accessor.byteOffset] ++ calls, ?_, ?_⟩
    · unfold drawModelPrimitives
      simp only [index_of_at? hacc, bind, Except.bind, mapAt, hebo, hc, pure, Except.pure]
    · rw [drawCalls_append, hd, List.flatMap_cons]
      simp only [primitiveDraw, hacc]
      rfl

theorem mapAt_ne_outOfFuel (m : Vbos) (key : Int) : mapAt m key ≠ .error .outOfFuel := by
  unfold mapAt; split <;> simp

theorem drawModelPrimitives_quiet (ebos : Vbos) (model : Model)
    (primitives : List Primitive) :
    Walked [] id (drawModelPrimitives ebos model primitives) := by
  induction primitives with
  | nil => simp [drawModelPrimitives, Walked, entered]
  | cons p rest ih =>
    unfold drawModelPrimitives
    refine walked_bind _ _ (index_ne_outOfFuel _ _) (fun accessor _ => ?_)
    refine walked_bind _ _ (mapAt_ne_outOfFuel _ _) (fun ebo _ => ?_)
    refine walked_bind _ _ ih.ne (fun more hr => ?_)
    have h1 := ih.ok hr
    simp only [id] at h1
    exact walked_pure _ (by
      show entered (_ ++ more) = []
      rw [entered_append, h1]; rfl)

/-! ### The bind walk -/

theorem childrenOf_eq {model : Model} {id : Int} {node : Node}
    (h : at? model.nodes id = some node) : childrenOf model id = node.children := by
  simp [childrenOf, h]

theorem reachable_inBounds {model : Model} (hn : NodesInRange model) {id : Int}
    (h : Reachable model id) : InBounds model.nodes id := by
  cases h with
  | root hr => exact hn.2.1 id hr
  | child hp hc =>
    rename_i parent
    unfold childrenOf at hc
    split at hc
    · rename_i node hnode
      exact hn.2.2 node (at?_mem hnode) id hc
    · cases hc

theorem Within.children {model : Model} {rank : Int → Nat} (ha : Acyclic model rank)
    {fuel : Nat} {ids : List Int} (h : Within model rank (fuel + 1) ids) {id : Int}
    (hid : id ∈ ids) : Within model rank fuel (childrenOf model id) := by
  intro c hc
  have := ha id (h id hid).1 c hc
  have := (h id hid).2
  exact ⟨Reachable.child (h id hid).1 hc, by omega⟩

theorem Within.zero {model : Model} {rank : Int → Nat} {ids : List Int}
    (h : Within model rank 0 ids) : ids = [] := by
  cases ids with
  | nil => rfl
  | cons id rest => exact absurd (h id (List.mem_cons_self _ _)).2 (Nat.not_lt_zero _)

theorem within_roots {model : Model} {rank : Int → Nat} {fuel : Nat}
    (h : ∀ id ∈ roots model, rank id < fuel) : Within model rank fuel (roots model) :=
  fun id hid => ⟨Reachable.root hid, h id hid⟩

theorem bindNodes_walked (model : Model)
    (visit : Vbos → Node → Except Err (Vbos × List GLCall)) (sub : Int → List Int)
    (ids : List Int)
    (h : ∀ id ∈ ids, ∀ node vbos, at? model.nodes id = some node →
      Walked (sub id) Prod.snd (visit vbos node)) (vbos : Vbos) :
    Walked (ids.flatMap (fun id => id :: sub id)) Prod.snd
      (bindNodes model visit ids vbos) := by
  induction ids generalizing vbos with
  | nil => simp [bindNodes, Walked, entered]
  | cons id rest ih =>
    have ih1 := ih (fun j hj => h j (List.mem_cons_of_mem _ hj))
    unfold bindNodes
    refine walked_bind _ _ (index_ne_outOfFuel _ _) (fun node hnode => ?_)
    have hv := h id (List.mem_cons_self _ _) node vbos (index_eq_ok hnode)
    refine walked_bind _ _ hv.ne (fun r hr => ?_)
    obtain ⟨out, calls⟩ := r
    have h1 := hv.ok hr
    refine walked_bind _ _ (ih1 out).ne (fun r2 hr2 => ?_)
    obtain ⟨out2, more⟩ := r2
    have h2 := (ih1 out).ok hr2
    simp only [] at h1 h2
    exact walked_pure _ (by
      show entered ([GLCall.enterNode id] ++ (calls ++ more)) = _
      rw [entered_append, entered_append, h1, h2, List.flatMap_cons]
      rfl)

theorem bindModelNode_walked (byteStride : Accessor → BufferView → Int) (model : Model)
    (fuel : Nat) (node : Node) (order : List Int)
    (h : ∀ vbos, Walked order Prod.snd
      (bindNodes model (bindModelNode byteStride model fuel) node.children vbos))
    (vbos : Vbos) :
    Walked order Prod.snd (bindModelNode byteStride model (fuel + 1) vbos node) := by
  unfold bindModelNode
  have hmesh : Walked [] Prod.snd
      (if 0 ≤ node.mesh ∧ node.mesh < model.meshes.length then do
        let mesh ← index model.meshes node.mesh
        bindMesh byteStride vbos model mesh
      else pure (vbos, [])) := by
    split
    · refine walked_bind _ _ (index_ne_outOfFuel _ _) (fun mesh _ => ?_)
      exact bindMeshPrimitives_quiet byteStride model mesh.primitives vbos
    · exact walked_pure _ rfl
  refine walked_bind _ _ hmesh.ne (fun r hr => ?_)
  obtain ⟨out, calls⟩ := r
  have h1 := hmesh.ok hr
  refine walked_bind _ _ (h out).ne (fun r2 hr2 => ?_)
  obtain ⟨out2, more⟩ := r2
  have h2 := (h out).ok hr2
  simp only [] at h1 h2
  exact walked_pure _ (by
    show entered (calls ++ more) = order
    rw [entered_append, h1, h2]; rfl)

theorem bindWalk_walked (byteStride : Accessor → BufferView → Int) (model : Model)
    (rank : Int → Nat) (ha : Acyclic model rank) (fuel : Nat) :
    ∀ ids, Within model rank fuel ids → ∀ vbos,
      Walked (preorder model fuel ids) Prod.snd
        (bindNodes model (bindModelNode byteStride model fuel) ids vbos) := by
  induction fuel with
  | zero =>
    intro ids hw vbos
    rw [hw.zero]
    simp [bindNodes, Walked, entered, preorder]
  | succ fuel ih =>
    intro ids hw vbos
    have := bindNodes_walked model (bindModelNode byteStride model (fuel + 1))
      (fun id => preorder model fuel (childrenOf model id)) ids
      (fun id hid node vbos1 hnode =>
        bindModelNode_walked byteStride model fuel node _
          (fun vbos2 => by
            have := ih (childrenOf model id) (hw.children ha hid) vbos2
            rw [childrenOf_eq hnode] at this
            simpa only [childrenOf_eq hnode] using this) vbos1) vbos
    exact this

theorem deleted_append (a b : List GLCall) : deleted (a ++ b) = deleted a ++ deleted b := by
  simp [deleted, List.filterMap_append]

theorem generated_append (a b : List GLCall) :
    generated (a ++ b) = generated a ++ generated b := by
  simp [generated, List.filterMap_append]

theorem deleted_flatMap {α : Type} (xs : List α) (f : α → List GLCall)
    (h : ∀ x, deleted (f x) = []) : deleted (xs.flatMap f) = [] := by
  induction xs with
  | nil => rfl
  | cons x rest ih => rw [List.flatMap_cons, deleted_append, h, ih]; rfl

theorem generated_flatMap {α : Type} (xs : List α) (f : α → List GLCall)
    (h : ∀ x, generated (f x) = []) : generated (xs.flatMap f) = [] := by
  induction xs with
  | nil => rfl
  | cons x rest ih => rw [List.flatMap_cons, generated_append, h, ih]; rfl

theorem deleted_attributeCalls (byteStride : Accessor → BufferView → Int) (vbos : Vbos)
    (model : Model) (attr : String × Int) :
    deleted (attributeCalls byteStride vbos model attr) = [] := by
  unfold attributeCalls
  split
  · split <;> rfl
  · rfl

theorem generated_attributeCalls (byteStride : Accessor → BufferView → Int) (vbos : Vbos)
    (model : Model) (attr : String × Int) :
    generated (attributeCalls byteStride vbos model attr) = [] := by
  unfold attributeCalls
  split
  · split <;> rfl
  · rfl

theorem bindNodes_ok (model : Model)
    (visit : Vbos → Node → Except Err (Vbos × List GLCall)) (ids : List Int)
    (h : ∀ id ∈ ids, InBounds model.nodes id ∧ ∀ node vbos, at? model.nodes id = some node →
      ∃ out calls, visit vbos node = .ok (out, calls) ∧ Grows model vbos out ∧
        deleted calls = [] ∧ generated calls = [])
    (vbos : Vbos) :
    ∃ out calls, bindNodes model visit ids vbos = .ok (out, calls) ∧ Grows model vbos out ∧
      deleted calls = [] ∧ generated calls = [] := by
  induction ids generalizing vbos with
  | nil => exact ⟨vbos, [], rfl, Grows.refl model vbos, rfl, rfl⟩
  | cons id rest ih =>
    obtain ⟨hin, hv⟩ := h id (List.mem_cons_self _ _)
    obtain ⟨node, hnode⟩ := at?_of_inBounds hin
    obtain ⟨out1, calls1, h1, hg1, hd1, hn1⟩ := hv node vbos hnode
    obtain ⟨out2, calls2, h2, hg2, hd2, hn2⟩ :=
      ih (fun j hj => h j (List.mem_cons_of_mem _ hj)) out1
    refine ⟨out2, GLCall.enterNode id :: calls1 ++ calls2, ?_, hg1.trans hg2, ?_, ?_⟩
    · unfold bindNodes
      simp only [index_of_at? hnode, bind, Except.bind, h1, h2, pure, Except.pure]
    · show deleted ([GLCall.enterNode id] ++ (calls1 ++ calls2)) = []
      rw [deleted_append, deleted_append, hd1, hd2]; rfl
    · show generated ([GLCall.enterNode id] ++ (calls1 ++ calls2)) = []
      rw [generated_append, generated_append, hn1, hn2]; rfl

theorem bindMesh_ok_of_mem (byteStride : Accessor → BufferView → Int) (model : Model)
    (hr : AccessorsInRange model) (mesh : Mesh) (hm : mesh ∈ model.meshes) (vbos : Vbos) :
    ∃ out, bindMesh byteStride vbos model mesh
        = .ok (out, mesh.primitives.flatMap
            (fun p => p.attributes.flatMap (attributeCalls byteStride vbos model))) ∧
      Grows model vbos out ∧
      ∀ p ∈ mesh.primitives, ∀ attr ∈ p.attributes, attributeLocation attr.1 ≠ none →
        ∀ accessor, at? model.accessors attr.2 = some accessor →
          mapFind out accessor.bufferView
            = some ((mapFind vbos accessor.bufferView).getD 0) := by
  unfold bindMesh
  exact bindMeshPrimitives_ok byteStride model mesh.primitives vbos
    (fun p hp => (hr.1 mesh hm p hp).1) (fun p hp attr hattr _ => by
      obtain ⟨accessor, hacc⟩ := at?_of_inBounds ((hr.1 mesh hm p hp).2 attr hattr)
      exact ⟨accessor, hacc, hr.2 accessor (at?_mem hacc)⟩)

theorem bindModelNode_ok (byteStride : Accessor → BufferView → Int) (model : Model)
    (hr : AccessorsInRange model) (fuel : Nat) (node : Node)
    (h : ∀ vbos, ∃ out calls,
      bindNodes model (bindModelNode byteStride model fuel) node.children vbos
        = .ok (out, calls) ∧ Grows model vbos out ∧ deleted calls = [] ∧
          generated calls = [])
    (vbos : Vbos) :
    ∃ out calls, bindModelNode byteStride model (fuel + 1) vbos node = .ok (out, calls) ∧
      Grows model vbos out ∧ deleted calls = [] ∧ generated calls = [] := by
  have hmesh : ∃ out calls, (if 0 ≤ node.mesh ∧ node.mesh < model.meshes.length then do
        let mesh ← index model.meshes node.mesh
        bindMesh byteStride vbos model mesh
      else pure (vbos, [])) = .ok (out, calls) ∧ Grows model vbos out ∧
        deleted calls = [] ∧ generated calls = [] := by
    split
    · rename_i hb
      obtain ⟨mesh, hmesh⟩ := @at?_of_inBounds Mesh model.meshes node.mesh hb
      obtain ⟨out, h1, hg, _⟩ :=
        bindMesh_ok_of_mem byteStride model hr mesh (at?_mem hmesh) vbos
      exact ⟨out, mesh.primitives.flatMap
          (fun p => p.attributes.flatMap (attributeCalls byteStride vbos model)),
        by simp only [index_of_at? hmesh, bind, Except.bind, h1], hg,
        deleted_flatMap _ _ (fun p => deleted_flatMap _ _
          (deleted_attributeCalls byteStride vbos model)),
        generated_flatMap _ _ (fun p => generated_flatMap _ _
          (generated_attributeCalls byteStride vbos model))⟩
    · exact ⟨vbos, [], rfl, Grows.refl model vbos, rfl, rfl⟩
  obtain ⟨out1, calls1, h1, hg1, hd1, hn1⟩ := hmesh
  obtain ⟨out2, calls2, h2, hg2, hd2, hn2⟩ := h out1
  refine ⟨out2, calls1 ++ calls2, ?_, hg1.trans hg2, ?_, ?_⟩
  · unfold bindModelNode
    simp only [bind, Except.bind, pure, Except.pure] at h1 ⊢
    rw [h1]
    simp only [h2]
  · rw [deleted_append, hd1, hd2]; rfl
  · rw [generated_append, hn1, hn2]; rfl

theorem bindWalk_ok (byteStride : Accessor → BufferView → Int) (model : Model)
    (rank : Int → Nat) (hn : NodesInRange model) (hr : AccessorsInRange model)
    (ha : Acyclic model rank) (fuel : Nat) :
    ∀ ids, Within model rank fuel ids → ∀ vbos, ∃ out calls,
      bindNodes model (bindModelNode byteStride model fuel) ids vbos = .ok (out, calls) ∧
        Grows model vbos out ∧ deleted calls = [] ∧ generated calls = [] := by
  induction fuel with
  | zero =>
    intro ids hw vbos
    rw [hw.zero]
    exact ⟨vbos, [], rfl, Grows.refl model vbos, rfl, rfl⟩
  | succ fuel ih =>
    intro ids hw vbos
    refine bindNodes_ok model _ ids (fun id hid => ⟨reachable_inBounds hn (hw id hid).1, ?_⟩) vbos
    intro node vbos1 hnode
    refine bindModelNode_ok byteStride model hr fuel node (fun vbos2 => ?_) vbos1
    have := ih (childrenOf model id) (hw.children ha hid) vbos2
    rwa [childrenOf_eq hnode] at this

/-! ### The draw walk -/

theorem drawNodes_walked (model : Model) (visit : Node → Except Err (List GLCall))
    (sub : Int → List Int) (ids : List Int)
    (h : ∀ n ∈ ids, ∀ node, at? model.nodes n = some node → Walked (sub n) id (visit node)) :
    Walked (ids.flatMap (fun n => n :: sub n)) id (drawNodes model visit ids) := by
  induction ids with
  | nil => simp [drawNodes, Walked, entered]
  | cons n rest ih =>
    have ih1 := ih (fun j hj => h j (List.mem_cons_of_mem _ hj))
    unfold drawNodes
    refine walked_bind _ _ (index_ne_outOfFuel _ _) (fun node hnode => ?_)
    have hv := h n (List.mem_cons_self _ _) node (index_eq_ok hnode)
    refine walked_bind _ _ hv.ne (fun calls hr => ?_)
    have h1 := hv.ok hr
    refine walked_bind _ _ ih1.ne (fun more hr2 => ?_)
    have h2 := ih1.ok hr2
    simp only [id] at h1 h2
    exact walked_pure _ (by
      show entered ([GLCall.enterNode n] ++ (calls ++ more)) = _
      rw [entered_append, entered_append, h1, h2, List.flatMap_cons]
      rfl)

theorem drawModelNodes_walked (ebos : Vbos) (model : Model) (fuel : Nat) (node : Node)
    (order : List Int)
    (h : Walked order id (drawNodes model (drawModelNodes ebos model fuel) node.children)) :
    Walked order id (drawModelNodes ebos model (fuel + 1) node) := by
  unfold drawModelNodes
  refine walked_bind _ _ (index_ne_outOfFuel _ _) (fun mesh _ => ?_)
  have hm := drawModelPrimitives_quiet ebos model mesh.primitives
  refine walked_bind _ _ hm.ne (fun calls hr => ?_)
  have h1 := hm.ok hr
  refine walked_bind _ _ h.ne (fun more hr2 => ?_)
  have h2 := h.ok hr2
  simp only [id] at h1 h2
  exact walked_pure _ (by
    show entered (calls ++ more) = order
    rw [entered_append, h1, h2]; rfl)

theorem drawWalk_walked (ebos : Vbos) (model : Model) (rank : Int → Nat)
    (ha : Acyclic model rank) (fuel : Nat) :
    ∀ ids, Within model rank fuel ids →
      Walked (preorder model fuel ids) id
        (drawNodes model (drawModelNodes ebos model fuel) ids) := by
  induction fuel with
  | zero =>
    intro ids hw
    rw [hw.zero]
    simp [drawNodes, Walked, entered, preorder]
  | succ fuel ih =>
    intro ids hw
    exact drawNodes_walked model (drawModelNodes ebos model (fuel + 1))
      (fun n => preorder model fuel (childrenOf model n)) ids
      (fun n hid node hnode =>
        drawModelNodes_walked ebos model fuel node _ (by
          have := ih (childrenOf model n) (hw.children ha hid)
          rw [childrenOf_eq hnode] at this
          simpa only [childrenOf_eq hnode] using this))

theorem drawNodes_ok (model : Model) (visit : Node → Except Err (List GLCall))
    (draws : Int → List GLCall) (ids : List Int)
    (h : ∀ id ∈ ids, InBounds model.nodes id ∧ ∀ node, at? model.nodes id = some node →
      ∃ calls, visit node = .ok calls ∧ drawCalls calls = draws id) :
    ∃ calls, drawNodes model visit ids = .ok calls ∧ drawCalls calls = ids.flatMap draws := by
  induction ids with
  | nil => exact ⟨[], rfl, rfl⟩
  | cons id rest ih =>
    obtain ⟨hin, hv⟩ := h id (List.mem_cons_self _ _)
    obtain ⟨node, hnode⟩ := at?_of_inBounds hin
    obtain ⟨calls1, h1, hd1⟩ := hv node hnode
    obtain ⟨calls2, h2, hd2⟩ := ih (fun j hj => h j (List.mem_cons_of_mem _ hj))
    refine ⟨GLCall.enterNode id :: calls1 ++ calls2, ?_, ?_⟩
    · unfold drawNodes
      simp only [index_of_at? hnode, bind, Except.bind, h1, h2, pure, Except.pure]
    · show drawCalls ([GLCall.enterNode id] ++ (calls1 ++ calls2)) = _
      rw [drawCalls_append, drawCalls_append, hd1, hd2, List.flatMap_cons]
      rfl

theorem drawModelNodes_ok (ebos : Vbos) (model : Model) (hd : Drawable ebos model)
    (fuel : Nat) (id : Int) (node : Node) (hnode : at? model.nodes id = some node)
    (more : List GLCall)
    (h : ∃ calls, drawNodes model (drawModelNodes ebos model fuel) node.children = .ok calls ∧
      drawCalls calls = more) :
    ∃ calls, drawModelNodes ebos model (fuel + 1) node = .ok calls ∧
      drawCalls calls = nodeDraws model id ++ more := by
  obtain ⟨mesh, hmesh⟩ := at?_of_inBounds (hd.1 node (at?_mem hnode))
  obtain ⟨calls1, h1, hd1⟩ := drawModelPrimitives_ok ebos model mesh.primitives
    (fun p hp => by
      obtain ⟨accessor, hacc⟩ := at?_of_inBounds (hd.2.1 mesh (at?_mem hmesh) p hp)
      exact ⟨accessor, hacc, hd.2.2 mesh (at?_mem hmesh) p hp accessor hacc⟩)
  obtain ⟨calls2, h2, hd2⟩ := h
  refine ⟨calls1 ++ calls2, ?_, ?_⟩
  · unfold drawModelNodes drawModelMeshes
    simp only [index_of_at? hmesh, bind, Except.bind, h1, h2, pure, Except.pure]
  · rw [drawCalls_append, hd1, hd2]
    simp only [nodeDraws, hnode, hmesh]

theorem drawWalk_ok (ebos : Vbos) (model : Model) (rank : Int → Nat)
    (hn : NodesInRange model) (hd : Drawable ebos model) (ha : Acyclic model rank)
    (fuel : Nat) :
    ∀ ids, Within model rank fuel ids →
      ∃ calls, drawNodes model (drawModelNodes ebos model fuel) ids = .ok calls ∧
        drawCalls calls = (preorder model fuel ids).flatMap (nodeDraws model) := by
  induction fuel with
  | zero =>
    intro ids hw
    rw [hw.zero]
    exact ⟨[], rfl, rfl⟩
  | succ fuel ih =>
    intro ids hw
    obtain ⟨calls, hc, hdc⟩ := drawNodes_ok model (drawModelNodes ebos model (fuel + 1))
      (fun id => nodeDraws model id ++
        (preorder model fuel (childrenOf model id)).flatMap (nodeDraws model)) ids
      (fun id hid => ⟨reachable_inBounds hn (hw id hid).1, fun node hnode =>
        drawModelNodes_ok ebos model hd fuel id node hnode _ (by
          have := ih (childrenOf model id) (hw.children ha hid)
          rw [childrenOf_eq hnode] at this ⊢
          exact this)⟩)
    refine ⟨calls, hc, ?_⟩
    rw [hdc]
    simp only [preorder, List.flatMap_assoc, List.flatMap_cons]

/-! ### The pre-order of the reachable nodes -/

theorem descends_of_child {model : Model} {a c x : Int} (hc : c ∈ childrenOf model a)
    (h : Descends model c x) : Descends model a x := by
  induction h with
  | refl => exact Descends.step Descends.refl hc
  | step _ hx ih => exact Descends.step ih hx

theorem descends_reachable {model : Model} {r x : Int} (hr : Reachable model r)
    (h : Descends model r x) : Reachable model x := by
  induction h with
  | refl => exact hr
  | step _ hx ih => exact Reachable.child ih hx

theorem descends_rank {model : Model} {rank : Int → Nat} (ha : Acyclic model rank)
    {r x : Int} (hr : Reachable model r) (h : Descends model r x) : rank x ≤ rank r := by
  induction h with
  | refl => exact le_refl _
  | step hy hx ih =>
    have := ha _ (descends_reachable hr hy) _ hx
    omega

theorem descends_cases {model : Model} {r x : Int} (h : Descends model r x) :
    x = r ∨ ∃ q, Descends model r q ∧ x ∈ childrenOf model q := by
  cases h with
  | refl => exact Or.inl rfl
  | step hy hx => exact Or.inr ⟨_, hy, hx⟩

theorem not_descends_child {model : Model} {rank : Int → Nat} (ha : Acyclic model rank)
    {p c : Int} (hp : Reachable model p) (hc : c ∈ childrenOf model p) :
    ¬ Descends model c p := by
  intro h
  have h1 := descends_rank ha (Reachable.child hp hc) h
  have h2 := ha p hp c hc
  omega

theorem preorder_mem_self {model : Model} {rank : Int → Nat} {fuel : Nat}
    {ids : List Int} (hw : Within model rank fuel ids) {x : Int}
    (h : x ∈ ids) : x ∈ preorder model fuel ids := by
  cases fuel with
  | zero => rw [hw.zero] at h; cases h
  | succ fuel =>
    simp only [preorder, List.mem_flatMap]
    exact ⟨x, h, List.mem_cons_self _ _⟩

theorem preorder_descends (model : Model) (fuel : Nat) :
    ∀ ids x, x ∈ preorder model fuel ids → ∃ r ∈ ids, Descends model r x := by
  induction fuel with
  | zero =>
    intro ids x h
    simp [preorder] at h
  | succ fuel ih =>
    intro ids x h
    simp only [preorder, List.mem_flatMap] at h
    obtain ⟨r, hr, hx⟩ := h
    rcases List.mem_cons.mp hx with rfl | hx
    · exact ⟨x, hr, Descends.refl⟩
    · obtain ⟨c, hc, hd⟩ := ih _ x hx
      exact ⟨r, hr, descends_of_child hc hd⟩

theorem preorder_mem_child (model : Model) (rank : Int → Nat) (ha : Acyclic model rank)
    (fuel : Nat) : ∀ ids, Within model rank fuel ids → ∀ p c, p ∈ preorder model fuel ids →
      c ∈ childrenOf model p → c ∈ preorder model fuel ids := by
  induction fuel with
  | zero =>
    intro ids hw p c hp _
    rw [hw.zero] at hp
    simp [preorder] at hp
  | succ fuel ih =>
    intro ids hw p c hp hc
    simp only [preorder, List.mem_flatMap] at hp ⊢
    obtain ⟨r, hr, hx⟩ := hp
    refine ⟨r, hr, List.mem_cons_of_mem _ ?_⟩
    rcases List.mem_cons.mp hx with rfl | hx
    · exact preorder_mem_self (hw.children ha hr) hc
    · exact ih _ (hw.children ha hr) p c hx hc

theorem mem_preorder_iff (model : Model) (rank : Int → Nat) (ha : Acyclic model rank)
    (fuel : Nat) (hf : ∀ r ∈ roots model, rank r < fuel) (x : Int) :
    x ∈ preorder model fuel (roots model) ↔ Reachable model x := by
  constructor
  · intro h
    obtain ⟨r, hr, hd⟩ := preorder_descends model fuel _ x h
    exact descends_reachable (Reachable.root hr) hd
  · intro h
    induction h with
    | root hr => exact preorder_mem_self (within_roots hf) hr
    | child _ hc ih =>
      exact preorder_mem_child model rank ha fuel _ (within_roots hf) _ _ ih hc

theorem descends_disjoint {model : Model} {rank : Int → Nat} (ht : IsTree model rank)
    {ids : List Int} (hreach : ∀ r ∈ ids, Reachable model r) (hp : NoParentBelow model ids)
    {r1 r2 : Int} (h1 : r1 ∈ ids) (h2 : r2 ∈ ids) (hne : r1 ≠ r2) {x : Int}
    (hx : Descends model r1 x) : ¬ Descends model r2 x := by
  induction hx with
  | refl =>
    intro h
    rcases descends_cases h with heq | ⟨q, hq, hc⟩
    · exact hne heq
    · exact hp r1 h1 q (descends_reachable (hreach r2 h2) hq) hc r2 h2 hq
  | step hy hxy ih =>
    rename_i y x
    intro h
    rcases descends_cases h with heq | ⟨q, hq, hc⟩
    · subst heq
      exact hp x h2 y (descends_reachable (hreach r1 h1) hy) hxy r1 h1 hy
    · have := ht.oneParent y q (descends_reachable (hreach r1 h1) hy)
        (descends_reachable (hreach r2 h2) hq) x hxy hc
      subst this
      exact ih hq

theorem noParentBelow_roots {model : Model} {rank : Int → Nat} (ht : IsTree model rank) :
    NoParentBelow model (roots model) :=
  fun r hr q hq hc _ _ _ => ht.rootNotChild q hq r hc hr

theorem noParentBelow_children {model : Model} {rank : Int → Nat} (ht : IsTree model rank)
    {p : Int} (hp : Reachable model p) : NoParentBelow model (childrenOf model p) := by
  intro r hr q hq hc y hy hd
  have := ht.oneParent p q hp hq r hr hc
  subst this
  exact not_descends_child ht.acyclic hp hy hd

theorem preorder_nodup (model : Model) (rank : Int → Nat) (ht : IsTree model rank)
    (fuel : Nat) : ∀ ids, Within model rank fuel ids → ids.Nodup → NoParentBelow model ids →
      (preorder model fuel ids).Nodup := by
  induction fuel with
  | zero =>
    intro ids _ _ _
    simp [preorder]
  | succ fuel ih =>
    intro ids hw hnd hp
    simp only [preorder]
    rw [List.nodup_flatMap]
    constructor
    · intro r hr
      have hreach := (hw r hr).1
      rw [List.nodup_cons]
      constructor
      · intro hmem
        obtain ⟨c, hc, hd⟩ := preorder_descends model fuel _ r hmem
        exact not_descends_child ht.acyclic hreach hc hd
      · exact ih _ (hw.children ht.acyclic hr) (ht.childrenNodup r hreach)
          (noParentBelow_children ht hreach)
    · refine (List.Nodup.pairwise_of_forall_ne hnd ?_)
      intro a ha b hb hab
      have hblock : ∀ r x, x ∈ r :: preorder model fuel (childrenOf model r) →
          Descends model r x := by
        intro r x hx
        rcases List.mem_cons.mp hx with rfl | hx
        · exact Descends.refl
        · obtain ⟨c, hc, hd⟩ := preorder_descends model fuel _ x hx
          exact descends_of_child hc hd
      intro x hxa hxb
      exact descends_disjoint ht (fun r hr => (hw r hr).1) hp ha hb hab
        (hblock a x hxa) (hblock b x hxb)

/-! ### The loop of `bindBufferViews` -/

theorem bindBufferViewsFrom_spec (names : Nat → GLuint) (model : Model)
    (views : List BufferView) (hb : ∀ v ∈ views, v.target ≠ 0 → BytesInRange model v) :
    ∀ (i : Int) (k : Nat) (vbos : Vbos), ∃ out calls,
      bindBufferViewsFrom names model views i k vbos = .ok (out, calls) ∧
      (KeysSorted vbos → KeysSorted out) ∧
      (∀ (n : Nat) v, views[n]? = some v → v.target ≠ 0 →
        mapFind out (i + n) = some (names (k + targeted (views.take n))) ∧
        ∃ pre post, calls = pre ++ uploadCalls (names (k + targeted (views.take n))) v
          (viewBytes model v) ++ post) ∧
      (∀ j, (∀ (n : Nat) v, views[n]? = some v → j = i + n → v.target = 0) →
        mapFind out j = mapFind vbos j) ∧
      deleted calls = [] ∧ entered calls = [] ∧
      generated calls = (List.range' k (targeted views)).map names := by
  induction views with
  | nil =>
    intro i k vbos
    exact ⟨vbos, [], rfl, id, by simp, fun _ _ => rfl, rfl, rfl, rfl⟩
  | cons v rest ih =>
    intro i k vbos
    have hrest : ∀ w ∈ rest, w.target ≠ 0 → BytesInRange model w :=
      fun w hw => hb w (List.mem_cons_of_mem _ hw)
    by_cases ht : v.target = 0
    · obtain ⟨out, calls, hrun, hs, hup, hsame, hdel, hent, hgen⟩ := ih hrest (i + 1) k vbos
      have htar : targeted (v :: rest) = targeted rest := by
        simp [targeted, List.filter_cons, ht]
      refine ⟨out, calls, ?_, hs, ?_, ?_, hdel, hent, by rw [hgen, htar]⟩
      · unfold bindBufferViewsFrom
        simp only [ht, if_true, hrun]
      · intro n w hn hw
        cases n with
        | zero =>
          simp only [List.getElem?_cons_zero, Option.some.injEq] at hn
          subst hn; exact absurd ht hw
        | succ m =>
          simp only [List.getElem?_cons_succ] at hn
          obtain ⟨h1, h2⟩ := hup m w hn hw
          have hcount : targeted ((v :: rest).take (m + 1)) = targeted (rest.take m) := by
            simp [targeted, List.take_succ_cons, List.filter_cons, ht]
          have hkey : i + ((m + 1 : Nat) : Int) = i + 1 + (m : Int) := by push_cast; ring
          rw [hcount, hkey]
          exact ⟨h1, h2⟩
      · intro j hj
        apply hsame
        intro m w hm hjm
        exact hj (m + 1) w (by simpa using hm) (by rw [hjm]; push_cast; ring)
    · have hbytes := hb v (List.mem_cons_self _ _) ht
      unfold BytesInRange at hbytes
      split at hbytes
      · rename_i buffer hbuf
        obtain ⟨out, calls, hrun, hs, hup, hsame, hdel, hent, hgen⟩ :=
          ih hrest (i + 1) (k + 1) (mapInsert vbos i (names k))
        have htar : targeted (v :: rest) = targeted rest + 1 := by
          simp [targeted, List.filter_cons, ht]
        have hhead : mapFind out i = some (names k) := by
          rw [hsame i (fun m w _ hm => by omega)]
          exact mapFind_mapInsert_self vbos i (names k)
        have hbytes2 : viewBytes model v
            = (buffer.data.drop v.byteOffset).take v.byteLength := by
          simp [viewBytes, hbuf]
        refine ⟨out, uploadCalls (names k) v (viewBytes model v) ++ calls, ?_,
          fun h => hs (keysSorted_mapInsert vbos i (names k) h), ?_, ?_, ?_, ?_, ?_⟩
        · unfold bindBufferViewsFrom
          simp only [ht, if_false, index_of_at? hbuf, bind, Except.bind, slice, hbytes,
            and_self, if_true, hrun, pure, Except.pure, hbytes2]
          rfl
        · intro n w hn hw
          cases n with
          | zero =>
            simp only [List.getElem?_cons_zero, Option.some.injEq] at hn
            subst hn
            refine ⟨by simpa [targeted] using hhead, [], calls, ?_⟩
            simp [targeted]
          | succ m =>
            simp only [List.getElem?_cons_succ] at hn
            obtain ⟨h1, pre, post, h2⟩ := hup m w hn hw
            have hcount : targeted ((v :: rest).take (m + 1)) = targeted (rest.take m) + 1 := by
              simp [targeted, List.take_succ_cons, List.filter_cons, ht]
            have hkey : i + ((m + 1 : Nat) : Int) = i + 1 + (m : Int) := by push_cast; ring
            have hk : k + (targeted (rest.take m) + 1) = k + 1 + targeted (rest.take m) := by
              omega
            rw [hcount, hkey, hk]
            refine ⟨h1, uploadCalls (names k) v (viewBytes model v) ++ pre, post, ?_⟩
            rw [h2]
            simp only [List.append_assoc]
        · intro j hj
          have hne : j ≠ i := by
            intro hji
            exact ht (hj 0 v (by simp) (by simp [hji]))
          rw [hsame j (fun m w hm hjm =>
            hj (m + 1) w (by simpa using hm) (by rw [hjm]; push_cast; ring))]
          exact mapFind_mapInsert_ne vbos i (names k) j hne
        · rw [deleted_append, hdel]; rfl
        · rw [entered_append, hent]; rfl
        · rw [generated_append, hgen, htar, List.range'_succ, List.map_cons]
          rfl
      · exact absurd hbytes id

/-! ### The map between the upload and the last loop of `bindModel` -/

theorem at?_getElem? {α : Type} {xs : List α} {i : Int} {x : α}
    (h : at? xs i = some x) : 0 ≤ i ∧ xs[i.toNat]? = some x := by
  unfold at? at h
  split at h
  · exact ⟨by assumption, h⟩
  · cases h

theorem generatedBefore_eq (model : Model) (i : Int) :
    generatedBefore model i = targeted (model.bufferViews.take i.toNat) := rfl

theorem targeted_take_succ (views : List BufferView) (n : Nat) :
    targeted (views.take (n + 1)) = targeted (views.take n) + targeted views[n]?.toList := by
  rw [List.take_succ]
  simp [targeted, List.filter_append]

theorem targeted_take_mono (views : List BufferView) {n m : Nat} (h : n ≤ m) :
    targeted (views.take n) ≤ targeted (views.take m) := by
  induction m with
  | zero =>
    have : n = 0 := by omega
    subst this; exact le_refl _
  | succ m ih =>
    rcases Nat.lt_or_ge n (m + 1) with hlt | hge
    · have := ih (by omega)
      rw [targeted_take_succ]
      omega
    · have : n = m + 1 := by omega
      subst this; exact le_refl _

theorem generatedBefore_lt (model : Model) {i j : Int} {v : BufferView}
    (hi : at? model.bufferViews i = some v) (ht : v.target ≠ 0) (hij : i < j) :
    generatedBefore model i < generatedBefore model j := by
  obtain ⟨h0, hget⟩ := at?_getElem? hi
  have h1 : targeted (model.bufferViews.take (i.toNat + 1))
      = targeted (model.bufferViews.take i.toNat) + 1 := by
    rw [targeted_take_succ, hget]
    simp [targeted, ht]
  have h2 := targeted_take_mono model.bufferViews (n := i.toNat + 1) (m := j.toNat) (by omega)
  rw [generatedBefore_eq, generatedBefore_eq]
  omega

theorem handleOf_injective (names : Nat → GLuint) (hinj : Function.Injective names)
    (model : Model) {i j : Int} {v w : BufferView}
    (hi : at? model.bufferViews i = some v) (hv : v.target ≠ 0)
    (hj : at? model.bufferViews j = some w) (hw : w.target ≠ 0)
    (h : handleOf names model i = handleOf names model j) : i = j := by
  have heq : generatedBefore model i = generatedBefore model j := hinj h
  rcases lt_trichotomy i j with hlt | heq' | hgt
  · have := generatedBefore_lt model hi hv hlt; omega
  · exact heq'
  · have := generatedBefore_lt model hj hw hgt; omega

theorem bindBufferViews_spec (names : Nat → GLuint) (model : Model)
    (hb : BuffersInRange model) (vbos : Vbos) :
    ∃ out calls, bindBufferViews names vbos model = .ok (out, calls) ∧
      (KeysSorted vbos → KeysSorted out) ∧
      (∀ i v, at? model.bufferViews i = some v → v.target ≠ 0 →
        mapFind out i = some (handleOf names model i) ∧
        ∃ pre post, calls = pre ++ uploadCalls (handleOf names model i) v
          (viewBytes model v) ++ post) ∧
      (∀ i, (∀ v, at? model.bufferViews i = some v → v.target = 0) →
        mapFind out i = mapFind vbos i) ∧
      deleted calls = [] ∧ entered calls = [] ∧
      generated calls = (List.range' 0 (targeted model.bufferViews)).map names := by
  obtain ⟨out, calls, hrun, hs, hup, hsame, hdel, hent, hgen⟩ :=
    bindBufferViewsFrom_spec names model model.bufferViews hb 0 0 vbos
  refine ⟨out, calls, hrun, hs, ?_, ?_, hdel, hent, hgen⟩
  · intro i v hi hv
    obtain ⟨h0, hget⟩ := at?_getElem? hi
    have := hup i.toNat v hget hv
    have hcast : (0 : Int) + (i.toNat : Int) = i := by omega
    rw [hcast, Nat.zero_add] at this
    exact this
  · intro i hi
    apply hsame
    intro n v hn hin
    apply hi v
    have : i.toNat = n := by omega
    simp [at?, hin, this, hn]

theorem Settled.grows {names : Nat → GLuint} {model : Model} {a b : Vbos}
    (hs : Settled names model a) (hg : Grows model a b) : Settled names model b := by
  refine ⟨hg.1 hs.sorted, fun i v hi hv => ?_, fun i h hfind => ?_⟩
  · rcases hg.2 i with h | ⟨hnone, _, _⟩
    · rw [h]; exact hs.uploaded i v hi hv
    · rw [hs.uploaded i v hi hv] at hnone; cases hnone
  · rcases hg.2 i with h' | ⟨_, hzero, hin⟩
    · rw [h'] at hfind; exact hs.other i h hfind
    · obtain ⟨v, hv⟩ := at?_of_inBounds hin
      rw [hzero] at hfind
      cases hfind
      exact ⟨v, hv, fun _ => rfl⟩

theorem Settled.value {names : Nat → GLuint} {model : Model} {m : Vbos}
    (hs : Settled names model m) {i : Int} {h : GLuint} (hmem : (i, h) ∈ m) :
    ∃ v, at? model.bufferViews i = some v ∧
      (v.target ≠ 0 → h = handleOf names model i) ∧ (v.target = 0 → h = 0) := by
  have hfind := mapFind_of_mem hs.sorted hmem
  obtain ⟨v, hv, hz⟩ := hs.other i h hfind
  refine ⟨v, hv, fun ht => ?_, hz⟩
  have := hs.uploaded i v hv ht
  rw [hfind] at this
  exact Option.some.inj this

theorem bindModelSweep_spec (model : Model) (vbos : Vbos)
    (h : ∀ e ∈ vbos, InBounds model.bufferViews e.1) :
    bindModelSweep model vbos = .ok
      (vbos.filter (fun e => isIndexView model e.1),
       (vbos.filter (fun e => !isIndexView model e.1)).map
         (fun e => GLCall.deleteBuffers e.2)) := by
  induction vbos with
  | nil => rfl
  | cons e rest ih =>
    obtain ⟨key, handle⟩ := e
    obtain ⟨v, hv⟩ := at?_of_inBounds (h (key, handle) (List.mem_cons_self _ _))
    have ih1 := ih (fun e he => h e (List.mem_cons_of_mem _ he))
    unfold bindModelSweep
    simp only [index_of_at? hv, bind, Except.bind, ih1, pure, Except.pure]
    by_cases ht : v.target = GL_ELEMENT_ARRAY_BUFFER
    · simp [isIndexView, hv, ht]
    · simp [isIndexView, hv, ht]

theorem bindModelSetup_ok (names : Nat → GLuint) (vao : GLuint)
    (byteStride : Accessor → BufferView → Int) (model : Model) (rank : Int → Nat)
    (fuel : Nat) (hr : InRange model) (ha : Acyclic model rank)
    (hf : ∀ r ∈ roots model, rank r < fuel) :
    ∃ vbos calls, bindModelSetup names vao byteStride model fuel = .ok (vbos, calls) ∧
      Settled names model vbos ∧ deleted calls = [] ∧
      entered calls = preorder model fuel (roots model) ∧
      generated calls = (List.range' 0 (targeted model.bufferViews)).map names := by
  obtain ⟨hn, hacc, hb⟩ := hr
  obtain ⟨scene, hscene⟩ := at?_of_inBounds hn.1
  obtain ⟨out0, uploads, h0, hs0, hup0, hsame0, hdel0, hent0, hgen0⟩ :=
    bindBufferViews_spec names model hb []
  have hroots : roots model = scene.nodes := by simp [roots, hscene]
  have hw : Within model rank fuel scene.nodes := hroots ▸ within_roots hf
  obtain ⟨out1, binds, h1, hg1, hdel1, hgen1⟩ :=
    bindWalk_ok byteStride model rank hn hacc ha fuel scene.nodes hw out0
  have hwalk := (bindWalk_walked byteStride model rank ha fuel scene.nodes hw out0).ok h1
  simp only [] at hwalk
  have hsettled0 : Settled names model out0 := by
    refine ⟨hs0 (by simp [KeysSorted]), fun i v hi hv => (hup0 i v hi hv).1, fun i h hfind => ?_⟩
    cases hv : at? model.bufferViews i with
    | none =>
      rw [hsame0 i (fun v hv' => by rw [hv] at hv'; cases hv')] at hfind
      simp [mapFind] at hfind
    | some v =>
      refine ⟨v, rfl, fun ht => ?_⟩
      rw [hsame0 i (fun w hw' => by rw [hv] at hw'; cases hw'; exact ht)] at hfind
      simp [mapFind] at hfind
  refine ⟨out1, GLCall.genVertexArrays vao :: RaiiBindVao vao (uploads ++ binds), ?_,
    hsettled0.grows hg1, ?_, ?_, ?_⟩
  · unfold bindModelSetup
    simp only [index_of_at? hscene, bind, Except.bind, h0, h1, pure, Except.pure]
  · show deleted ([GLCall.genVertexArrays vao, GLCall.bindVertexArray vao]
      ++ ((uploads ++ binds) ++ [GLCall.bindVertexArray 0])) = []
    rw [deleted_append, deleted_append, deleted_append, hdel0, hdel1]; rfl
  · show entered ([GLCall.genVertexArrays vao, GLCall.bindVertexArray vao]
      ++ ((uploads ++ binds) ++ [GLCall.bindVertexArray 0])) = _
    rw [entered_append, entered_append, entered_append, hent0, hwalk, hroots]
    simp [entered]
  · show generated ([GLCall.genVertexArrays vao, GLCall.bindVertexArray vao]
      ++ ((uploads ++ binds) ++ [GLCall.bindVertexArray 0])) = _
    rw [generated_append, generated_append, generated_append, hgen0, hgen1]
    simp [generated]

theorem targeted_take_le (views : List BufferView) (n : Nat) :
    targeted (views.take n) ≤ targeted views := by
  rcases Nat.le_total n views.length with h | h
  · have := targeted_take_mono views h
    rwa [List.take_length] at this
  · rw [List.take_of_length_le h]

theorem exists_view_of_lt (views : List BufferView) :
    ∀ j, j < targeted views →
      ∃ (n : Nat) (v : BufferView), views[n]? = some v ∧ v.target ≠ 0 ∧
        targeted (views.take n) = j := by
  induction views with
  | nil => intro j hj; simp [targeted] at hj
  | cons v rest ih =>
    intro j hj
    by_cases ht : v.target = 0
    · have htar : targeted (v :: rest) = targeted rest := by
        simp [targeted, List.filter_cons, ht]
      obtain ⟨n, w, hn, hw, hc⟩ := ih j (by omega)
      refine ⟨n + 1, w, by simpa using hn, hw, ?_⟩
      rw [← hc]
      simp [targeted, List.take_succ_cons, List.filter_cons, ht]
    · have htar : targeted (v :: rest) = targeted rest + 1 := by
        simp [targeted, List.filter_cons, ht]
      cases j with
      | zero => exact ⟨0, v, by simp, ht, by simp [targeted]⟩
      | succ j =>
        obtain ⟨n, w, hn, hw, hc⟩ := ih j (by omega)
        refine ⟨n + 1, w, by simpa using hn, hw, ?_⟩
        rw [← hc]
        simp [targeted, List.take_succ_cons, List.filter_cons, ht]

theorem mem_generated_iff (names : Nat → GLuint) (model : Model) (h : GLuint) :
    h ∈ (List.range' 0 (targeted model.bufferViews)).map names ↔
      ∃ i v, at? model.bufferViews i = some v ∧ v.target ≠ 0 ∧
        h = handleOf names model i := by
  constructor
  · intro hm
    obtain ⟨j, hj, rfl⟩ := List.mem_map.mp hm
    rw [List.mem_range'_1] at hj
    obtain ⟨n, v, hn, hv, hc⟩ := exists_view_of_lt model.bufferViews j (by omega)
    refine ⟨(n : Int), v, by simp [at?, hn], hv, ?_⟩
    simp [handleOf, generatedBefore_eq, hc]
  · rintro ⟨i, v, hi, hv, rfl⟩
    obtain ⟨h0, hget⟩ := at?_getElem? hi
    have h1 : targeted (model.bufferViews.take (i.toNat + 1))
        = targeted (model.bufferViews.take i.toNat) + 1 := by
      rw [targeted_take_succ, hget]
      simp [targeted, hv]
    have h2 := targeted_take_le model.bufferViews (i.toNat + 1)
    refine List.mem_map.mpr ⟨generatedBefore model i, ?_, rfl⟩
    rw [List.mem_range'_1, generatedBefore_eq]
    omega

/-! ### `bindModel` and `drawModel` as a whole -/

theorem slice_ne_outOfFuel (data : List Nat) (offset length : Nat) :
    slice data offset length ≠ .error .outOfFuel := by
  unfold slice; split <;> simp

theorem bindBufferViewsFrom_quiet (names : Nat → GLuint) (model : Model)
    (views : List BufferView) :
    ∀ (i : Int) (k : Nat) (vbos : Vbos),
      Walked [] Prod.snd (bindBufferViewsFrom names model views i k vbos) := by
  induction views with
  | nil => intro i k vbos; simp [bindBufferViewsFrom, Walked, entered]
  | cons v rest ih =>
    intro i k vbos
    unfold bindBufferViewsFrom
    split
    · exact ih _ _ _
    · refine walked_bind _ _ (index_ne_outOfFuel _ _) (fun buffer _ => ?_)
      refine walked_bind _ _ (slice_ne_outOfFuel _ _ _) (fun bytes _ => ?_)
      refine walked_bind _ _ (ih _ _ _).ne (fun r hr => ?_)
      obtain ⟨out, calls⟩ := r
      have h1 := (ih _ _ _).ok hr
      simp only [] at h1
      exact walked_pure _ (by
        show entered (_ ++ calls) = []
        rw [entered_append, h1]; rfl)

theorem bindModelSweep_quiet (model : Model) (vbos : Vbos) :
    Walked [] Prod.snd (bindModelSweep model vbos) := by
  induction vbos with
  | nil => simp [bindModelSweep, Walked, entered]
  | cons e rest ih =>
    obtain ⟨key, handle⟩ := e
    unfold bindModelSweep
    refine walked_bind _ _ (index_ne_outOfFuel _ _) (fun v _ => ?_)
    refine walked_bind _ _ ih.ne (fun r hr => ?_)
    obtain ⟨kept, calls⟩ := r
    have h1 := ih.ok hr
    simp only [] at h1
    show Walked [] Prod.snd
      (if v.target = GL_ELEMENT_ARRAY_BUFFER then pure ((key, handle) :: kept, calls)
       else pure (kept, GLCall.deleteBuffers handle :: calls))
    split
    · exact h1
    · show entered ([GLCall.deleteBuffers handle] ++ calls) = []
      rw [entered_append, h1]; rfl

theorem roots_eq {model : Model} {scene : Scene}
    (h : index model.scenes model.defaultScene = .ok scene) : roots model = scene.nodes := by
  simp [roots, index_eq_ok h]

theorem bindModelSetup_walked (names : Nat → GLuint) (vao : GLuint)
    (byteStride : Accessor → BufferView → Int) (model : Model) (rank : Int → Nat)
    (fuel : Nat) (ha : Acyclic model rank) (hf : ∀ r ∈ roots model, rank r < fuel) :
    Walked (preorder model fuel (roots model)) Prod.snd
      (bindModelSetup names vao byteStride model fuel) := by
  unfold bindModelSetup
  refine walked_bind _ _ (index_ne_outOfFuel _ _) (fun scene hscene => ?_)
  have hq := bindBufferViewsFrom_quiet names model model.bufferViews 0 0 []
  refine walked_bind _ _ hq.ne (fun r hr => ?_)
  obtain ⟨out0, uploads⟩ := r
  have h0 := hq.ok hr
  have hw : Within model rank fuel scene.nodes := roots_eq hscene ▸ within_roots hf
  have hwalk := bindWalk_walked byteStride model rank ha fuel scene.nodes hw out0
  refine walked_bind _ _ hwalk.ne (fun r2 hr2 => ?_)
  obtain ⟨out1, binds⟩ := r2
  have h1 := hwalk.ok hr2
  simp only [] at h0 h1
  exact walked_pure _ (by
    show entered ([GLCall.genVertexArrays vao, GLCall.bindVertexArray vao]
      ++ ((uploads ++ binds) ++ [GLCall.bindVertexArray 0])) = _
    rw [entered_append, entered_append, entered_append, h0, h1, roots_eq hscene]
    simp [entered])

theorem bindModel_walked (names : Nat → GLuint) (vao : GLuint)
    (byteStride : Accessor → BufferView → Int) (model : Model) (rank : Int → Nat)
    (fuel : Nat) (ha : Acyclic model rank) (hf : ∀ r ∈ roots model, rank r < fuel) :
    Walked (preorder model fuel (roots model)) (fun r => r.2.2)
      (bindModel names vao byteStride model fuel) := by
  unfold bindModel
  have hs := bindModelSetup_walked names vao byteStride model rank fuel ha hf
  refine walked_bind _ _ hs.ne (fun r hr => ?_)
  obtain ⟨vbos, setup⟩ := r
  have h0 := hs.ok hr
  have hq := bindModelSweep_quiet model vbos
  refine walked_bind _ _ hq.ne (fun r2 hr2 => ?_)
  obtain ⟨ebos, deletes⟩ := r2
  have h1 := hq.ok hr2
  simp only [] at h0 h1
  exact walked_pure _ (by
    show entered (setup ++ deletes) = _
    rw [entered_append, h0, h1, List.append_nil])

theorem drawModel_walked (vao : GLuint) (ebos : Vbos) (model : Model) (rank : Int → Nat)
    (fuel : Nat) (ha : Acyclic model rank) (hf : ∀ r ∈ roots model, rank r < fuel) :
    Walked (preorder model fuel (roots model)) (fun calls => calls)
      (drawModel vao ebos model fuel) := by
  unfold drawModel
  refine walked_bind _ _ (index_ne_outOfFuel _ _) (fun scene hscene => ?_)
  have hw : Within model rank fuel scene.nodes := roots_eq hscene ▸ within_roots hf
  have hwalk := drawWalk_walked ebos model rank ha fuel scene.nodes hw
  refine walked_bind _ _ hwalk.ne (fun calls hr => ?_)
  have h1 := hwalk.ok hr
  simp only [id] at h1
  exact walked_pure _ (by
    show entered ([GLCall.bindVertexArray vao] ++ (calls ++ [GLCall.bindVertexArray 0])) = _
    rw [entered_append, entered_append, h1, roots_eq hscene]
    simp [entered])

theorem drawModel_ok (vao : GLuint) (ebos : Vbos) (model : Model) (rank : Int → Nat)
    (fuel : Nat) (hn : NodesInRange model) (hd : Drawable ebos model)
    (ha : Acyclic model rank) (hf : ∀ r ∈ roots model, rank r < fuel) :
    ∃ calls, drawModel vao ebos model fuel = .ok calls ∧
      drawCalls calls = (preorder model fuel (roots model)).flatMap (nodeDraws model) := by
  obtain ⟨scene, hscene⟩ := at?_of_inBounds hn.1
  have hroots : roots model = scene.nodes := by simp [roots, hscene]
  have hw : Within model rank fuel scene.nodes := hroots ▸ within_roots hf
  obtain ⟨calls, hc, hdc⟩ := drawWalk_ok ebos model rank hn hd ha fuel scene.nodes hw
  refine ⟨RaiiBindVao vao calls, ?_, ?_⟩
  · unfold drawModel
    simp only [index_of_at? hscene, bind, Except.bind, hc, pure, Except.pure]
  · show drawCalls ([GLCall.bindVertexArray vao] ++ (calls ++ [GLCall.bindVertexArray 0])) = _
    rw [drawCalls_append, drawCalls_append, hdc, hroots]
    simp [drawCalls]

theorem settled_keys_inBounds {names : Nat → GLuint} {model : Model} {m : Vbos}
    (hs : Settled names model m) : ∀ e ∈ m, InBounds model.bufferViews e.1 := by
  intro e he
  obtain ⟨v, hv, _⟩ := hs.value (i := e.1) (h := e.2) he
  exact at?_inBounds hv

theorem bindModel_ok (names : Nat → GLuint) (vao : GLuint)
    (byteStride : Accessor → BufferView → Int) (model : Model) (rank : Int → Nat)
    (fuel : Nat) (hr : InRange model) (ha : Acyclic model rank)
    (hf : ∀ r ∈ roots model, rank r < fuel) :
    ∃ vbos setup,
      bindModelSetup names vao byteStride model fuel = .ok (vbos, setup) ∧
      bindModelSweep model vbos = .ok
        (vbos.filter (fun e => isIndexView model e.1),
         (vbos.filter (fun e => !isIndexView model e.1)).map
           (fun e => GLCall.deleteBuffers e.2)) ∧
      bindModel names vao byteStride model fuel = .ok
        (vao, vbos.filter (fun e => isIndexView model e.1),
         setup ++ (vbos.filter (fun e => !isIndexView model e.1)).map
           (fun e => GLCall.deleteBuffers e.2)) ∧
      Settled names model vbos ∧ deleted setup = [] ∧
      generated setup = (List.range' 0 (targeted model.bufferViews)).map names := by
  obtain ⟨vbos, setup, h1, hs, hdel, _, hgen⟩ :=
    bindModelSetup_ok names vao byteStride model rank fuel hr ha hf
  have h2 := bindModelSweep_spec model vbos (settled_keys_inBounds hs)
  refine ⟨vbos, setup, h1, h2, ?_, hs, hdel, hgen⟩
  unfold bindModel
  simp only [h1, h2, bind, Except.bind, pure, Except.pure]

theorem drawModelPrimitives_outcome (ebos : Vbos) (model : Model)
    (primitives : List Primitive)
    (hidx : ∀ p ∈ primitives, InBounds model.accessors p.indices) :
    ((∃ calls, drawModelPrimitives ebos model primitives = .ok calls) ∧
      ∀ p ∈ primitives, ∀ accessor ∈ at? model.accessors p.indices,
        mapFind ebos accessor.bufferView ≠ none) ∨
    (drawModelPrimitives ebos model primitives = .error .outOfRange ∧
      ∃ p ∈ primitives, ∃ accessor ∈ at? model.accessors p.indices,
        mapFind ebos accessor.bufferView = none) := by
  induction primitives with
  | nil => exact Or.inl ⟨⟨[], rfl⟩, by simp⟩
  | cons p rest ih =>
    obtain ⟨accessor, hacc⟩ := at?_of_inBounds (hidx p (List.mem_cons_self _ _))
    cases hfind : mapFind ebos accessor.bufferView with
    | none =>
      refine Or.inr ⟨?_, p, List.mem_cons_self _ _, accessor, hacc, hfind⟩
      unfold drawModelPrimitives
      simp only [index_of_at? hacc, bind, Except.bind, mapAt, hfind]
    | some ebo =>
      rcases ih (fun q hq => hidx q (List.mem_cons_of_mem _ hq)) with
        ⟨⟨calls, hc⟩, hgood⟩ | ⟨herr, q, hq, acc, hacc2, hbad⟩
      · refine Or.inl ⟨⟨RaiiBindBuffer GL_ELEMENT_ARRAY_BUFFER ebo
          [GLCall.drawElements p.mode (toGLsizei accessor.count) accessor.componentType
            accessor.byteOffset] ++ calls, ?_⟩, ?_⟩
        · unfold drawModelPrimitives
          simp only [index_of_at? hacc, bind, Except.bind, mapAt, hfind, hc, pure,
            Except.pure]
        · intro q hq acc hacc2
          rcases List.mem_cons.mp hq with heq | hmem
          · subst heq
            have : acc = accessor := by
              have := hacc2.symm.trans hacc
              exact Option.some.inj this
            rw [this, hfind]; simp
          · exact hgood q hmem acc hacc2
      · refine Or.inr ⟨?_, q, List.mem_cons_of_mem _ hq, acc, hacc2, hbad⟩
        unfold drawModelPrimitives
        simp only [index_of_at? hacc, bind, Except.bind, mapAt, hfind, herr]

theorem drawNodes_outcome (ebos : Vbos) (model : Model)
    (visit : Node → Except Err (List GLCall)) (sub : Int → List Int) (ids : List Int)
    (h : ∀ n ∈ ids, InBounds model.nodes n ∧ ∀ node, at? model.nodes n = some node →
      DrawOutcome ebos model (n :: sub n) (visit node)) :
    DrawOutcome ebos model (ids.flatMap (fun n => n :: sub n))
      (drawNodes model visit ids) := by
  induction ids with
  | nil => exact Or.inl ⟨⟨[], rfl⟩, by simp⟩
  | cons n rest ih =>
    obtain ⟨hin, hv⟩ := h n (List.mem_cons_self _ _)
    obtain ⟨node, hnode⟩ := at?_of_inBounds hin
    rcases hv node hnode with ⟨⟨calls, hc⟩, hgood⟩ | ⟨herr, x, hx, hbad⟩
    · rcases ih (fun j hj => h j (List.mem_cons_of_mem _ hj)) with
        ⟨⟨more, hm⟩, hgood2⟩ | ⟨herr2, x, hx, hbad⟩
      · refine Or.inl ⟨⟨GLCall.enterNode n :: calls ++ more, ?_⟩, ?_⟩
        · unfold drawNodes
          simp only [index_of_at? hnode, bind, Except.bind, hc, hm, pure, Except.pure]
        · intro x hx
          rw [List.flatMap_cons, List.mem_append] at hx
          rcases hx with hx | hx
          · exact hgood x hx
          · exact hgood2 x hx
      · refine Or.inr ⟨?_, x, ?_, hbad⟩
        · unfold drawNodes
          simp only [index_of_at? hnode, bind, Except.bind, hc, herr2]
        · rw [List.flatMap_cons, List.mem_append]
          exact Or.inr hx
    · refine Or.inr ⟨?_, x, ?_, hbad⟩
      · unfold drawNodes
        simp only [index_of_at? hnode, bind, Except.bind, herr]
      · rw [List.flatMap_cons, List.mem_append]
        exact Or.inl hx

theorem drawModelNodes_outcome (ebos : Vbos) (model : Model) (hm : MeshesInRange model)
    (hidx : ∀ mesh ∈ model.meshes, ∀ primitive ∈ mesh.primitives,
      InBounds model.accessors primitive.indices)
    (fuel : Nat) (n : Int) (node : Node) (hnode : at? model.nodes n = some node)
    (order : List Int)
    (h : DrawOutcome ebos model order
      (drawNodes model (drawModelNodes ebos model fuel) node.children)) :
    DrawOutcome ebos model (n :: order) (drawModelNodes ebos model (fuel + 1) node) := by
  obtain ⟨mesh, hmesh⟩ := at?_of_inBounds (hm node (at?_mem hnode))
  rcases drawModelPrimitives_outcome ebos model mesh.primitives
      (hidx mesh (at?_mem hmesh)) with ⟨⟨calls, hc⟩, hgood⟩ | ⟨herr, p, hp, acc, hacc, hbad⟩
  · have hn : NodeLookupsSucceed ebos model n := by
      intro node1 hnode1 mesh1 hmesh1 p hp acc hacc
      have e1 : node1 = node := Option.some.inj (hnode1.symm.trans hnode)
      subst e1
      have e2 : mesh1 = mesh := Option.some.inj (hmesh1.symm.trans hmesh)
      subst e2
      exact hgood p hp acc hacc
    rcases h with ⟨⟨more, hmore⟩, hgood2⟩ | ⟨herr2, x, hx, hbad⟩
    · refine Or.inl ⟨⟨calls ++ more, ?_⟩, ?_⟩
      · unfold drawModelNodes drawModelMeshes
        simp only [index_of_at? hmesh, bind, Except.bind, hc, hmore, pure, Except.pure]
      · intro x hx
        rcases List.mem_cons.mp hx with heq | hmem
        · rw [heq]; exact hn
        · exact hgood2 x hmem
    · refine Or.inr ⟨?_, x, List.mem_cons_of_mem _ hx, hbad⟩
      unfold drawModelNodes drawModelMeshes
      simp only [index_of_at? hmesh, bind, Except.bind, hc, herr2]
  · refine Or.inr ⟨?_, n, List.mem_cons_self _ _, ?_⟩
    · unfold drawModelNodes drawModelMeshes
      simp only [index_of_at? hmesh, bind, Except.bind, herr]
    · intro hgood
      exact hgood node hnode mesh hmesh p hp acc hacc hbad

theorem drawWalk_outcome (ebos : Vbos) (model : Model) (rank : Int → Nat)
    (hn : NodesInRange model) (hm : MeshesInRange model)
    (hidx : ∀ mesh ∈ model.meshes, ∀ primitive ∈ mesh.primitives,
      InBounds model.accessors primitive.indices)
    (ha : Acyclic model rank) (fuel : Nat) :
    ∀ ids, Within model rank fuel ids →
      DrawOutcome ebos model (preorder model fuel ids)
        (drawNodes model (drawModelNodes ebos model fuel) ids) := by
  induction fuel with
  | zero =>
    intro ids hw
    rw [hw.zero]
    exact Or.inl ⟨⟨[], rfl⟩, by simp [preorder]⟩
  | succ fuel ih =>
    intro ids hw
    exact drawNodes_outcome ebos model (drawModelNodes ebos model (fuel + 1))
      (fun n => preorder model fuel (childrenOf model n)) ids
      (fun n hid => ⟨reachable_inBounds hn (hw n hid).1, fun node hnode =>
        drawModelNodes_outcome ebos model hm hidx fuel n node hnode _ (by
          have := ih (childrenOf model n) (hw.children ha hid)
          rw [childrenOf_eq hnode] at this
          simpa only [childrenOf_eq hnode] using this)⟩)

theorem drawModel_outcome (vao : GLuint) (ebos : Vbos) (model : Model) (rank : Int → Nat)
    (fuel : Nat) (hn : NodesInRange model) (hm : MeshesInRange model)
    (hidx : ∀ mesh ∈ model.meshes, ∀ primitive ∈ mesh.primitives,
      InBounds model.accessors primitive.indices)
    (ha : Acyclic model rank) (hf : ∀ r ∈ roots model, rank r < fuel) :
    DrawOutcome ebos model (preorder model fuel (roots model))
      (drawModel vao ebos model fuel) := by
  obtain ⟨scene, hscene⟩ := at?_of_inBounds hn.1
  have hroots : roots model = scene.nodes := by simp [roots, hscene]
  have hw : Within model rank fuel scene.nodes := hroots ▸ within_roots hf
  rw [hroots]
  rcases drawWalk_outcome ebos model rank hn hm hidx ha fuel scene.nodes hw with
    ⟨⟨calls, hc⟩, hgood⟩ | ⟨herr, x, hx, hbad⟩
  · refine Or.inl ⟨⟨RaiiBindVao vao calls, ?_⟩, hgood⟩
    unfold drawModel
    simp only [index_of_at? hscene, bind, Except.bind, hc, pure, Except.pure]
  · refine Or.inr ⟨?_, x, hx, hbad⟩
    unfold drawModel
    simp only [index_of_at? hscene, bind, Except.bind, herr]

/-! ### Component count, load failure, attribute binding and draw calls -/

theorem attributeLocation_some {name : String} (h : attributeLocation name ≠ none) :
    name = "POSITION" ∨ name = "NORMAL" ∨ name = "TEXCOORD_0" := by
  unfold attributeLocation at h
  by_cases h1 : name = "POSITION"
  · exact Or.inl h1
  by_cases h2 : name = "NORMAL"
  · exact Or.inr (Or.inl h2)
  by_cases h3 : name = "TEXCOORD_0"
  · exact Or.inr (Or.inr h3)
  simp [h1, h2, h3] at h

/-- C10. The component count that `bindMesh` passes to the attribute pointer
is 1 when the accessor type is `TINYGLTF_TYPE_SCALAR` (65) and the type code
otherwise; for SCALAR, VEC2, VEC3, VEC4 (65, 2, 3, 4) it is 1, 2, 3, 4; and over
the seven glTF accessor types (those and MAT2, MAT3, MAT4 with 34, 35, 36) it
lies in 1..4 exactly for SCALAR, VEC2, VEC3 and VEC4. -/
theorem componentCount_valid :
    (∀ type, componentCount type = if type = 65 then 1 else type) ∧
    componentCount 65 = 1 ∧ componentCount 2 = 2 ∧ componentCount 3 = 3 ∧
    componentCount 4 = 4 ∧
    (∀ type ∈ [(65 : Int), 2, 3, 4, 34, 35, 36],
      (1 ≤ componentCount type ∧ componentCount type ≤ 4) ↔ type ∈ [(65 : Int), 2, 3, 4]) := by
  refine ⟨?_, by decide, by decide, by decide, by decide, by decide⟩
  intro type
  unfold componentCount TINYGLTF_TYPE_SCALAR
  by_cases h : type = 65 <;> simp [h]

/-- C5. `loadModel` raises "Could not load model" exactly when the loader
returns false; when the loader returns true it returns the model normally,
whatever the warning and error strings are; and when the load of "model.gltf"
fails, `main` ends with that error whatever the other inputs are, so neither
`bindModel` nor a frame is reached. -/
theorem loadModel_aborts_iff_loader_fails (loader : String → LoadResult) (path : String) :
    ((loadModel loader path).2 = .error (.runtimeError "Could not load model")
      ↔ (loader path).ret = false) ∧
    ((loader path).ret = true → (loadModel loader path).2 = .ok (loader path).model) ∧
    ((loader "model.gltf").ret = false →
      ∀ names vaoName byteStride fuel frames,
        main loader names vaoName byteStride fuel frames
          = .error (.runtimeError "Could not load model")) := by
  refine ⟨?_, ?_, ?_⟩
  · unfold loadModel
    cases h : (loader path).ret <;> simp [h]
  · intro h
    unfold loadModel
    simp [h]
  · intro h names vaoName byteStride fuel frames
    unfold main loadModel
    simp [h, bind, Except.bind]

/-- C4. `bindMesh` binds attributes by semantic name. When the accessors it
reads are in range it returns, and the calls it makes are, primitive after
primitive and attribute after attribute, the calls `attributeCalls` of each
attribute: for `POSITION`, `NORMAL`, `TEXCOORD_0` a bind of the handle stored
for the buffer view of the accessor (0 when none is stored), the enabling of
location 0, 1, 2 respectively, and the attribute pointer at that location with
the component type, normalized flag, byte stride and byte offset of the
accessor; for every other name no call at all, the attributes after it being
processed all the same. -/
theorem bindMesh_binds_by_semantic_name (byteStride : Accessor → BufferView → Int)
    (vbos : Vbos) (model : Model) (mesh : Mesh)
    (hidx : ∀ p ∈ mesh.primitives, InBounds model.accessors p.indices)
    (hattr : ∀ p ∈ mesh.primitives, ∀ attr ∈ p.attributes,
      attr.1 = "POSITION" ∨ attr.1 = "NORMAL" ∨ attr.1 = "TEXCOORD_0" →
      InBounds model.accessors attr.2 ∧
      ∀ accessor ∈ at? model.accessors attr.2,
        InBounds model.bufferViews accessor.bufferView) :
    (∃ out, bindMesh byteStride vbos model mesh = .ok (out,
      mesh.primitives.flatMap
        (fun p => p.attributes.flatMap (attributeCalls byteStride vbos model)))) ∧
    (∀ name accessorId accessor bufferView location,
      at? model.accessors accessorId = some accessor →
      at? model.bufferViews accessor.bufferView = some bufferView →
      (name = "POSITION" ∧ location = 0 ∨ name = "NORMAL" ∧ location = 1 ∨
        name = "TEXCOORD_0" ∧ location = 2) →
      attributeCalls byteStride vbos model (name, accessorId) =
        [GLCall.bindBuffer GL_ARRAY_BUFFER ((mapFind vbos accessor.bufferView).getD 0),
         GLCall.enableVertexAttribArray location,
         GLCall.vertexAttribPointer location (componentCount accessor.type)
           accessor.componentType accessor.normalized (byteStride accessor bufferView)
           accessor.byteOffset]) ∧
    (∀ name accessorId, name ≠ "POSITION" → name ≠ "NORMAL" → name ≠ "TEXCOORD_0" →
      attributeCalls byteStride vbos model (name, accessorId) = []) := by
  refine ⟨?_, ?_, ?_⟩
  · obtain ⟨out, h, _, _⟩ := bindMeshPrimitives_ok byteStride model mesh.primitives vbos hidx
      (fun p hp attr ha hloc => by
        obtain ⟨h1, h2⟩ := hattr p hp attr ha (attributeLocation_some hloc)
        obtain ⟨accessor, hacc⟩ := at?_of_inBounds h1
        exact ⟨accessor, hacc, h2 accessor hacc⟩)
    exact ⟨out, h⟩
  · intro name accessorId accessor bufferView location hacc hbv hname
    have hloc : attributeLocation name = some location := by
      rcases hname with ⟨h, hl⟩ | ⟨h, hl⟩ | ⟨h, hl⟩ <;> subst h <;> subst hl <;> decide
    simp [attributeCalls, hloc, hacc, hbv]
  · intro name accessorId h1 h2 h3
    simp [attributeCalls, attributeLocation, h1, h2, h3]

theorem toGLsizei_of_lt {n : Nat} (h : n < 2 ^ 31) : toGLsizei n = (n : Int) := by
  have hmod : n % 2 ^ 32 = n := Nat.mod_eq_of_lt (by omega)
  unfold toGLsizei
  rw [hmod, if_pos h]

theorem preorder_reachable (model : Model) (fuel : Nat) {id : Int}
    (h : id ∈ preorder model fuel (roots model)) : Reachable model id := by
  obtain ⟨r, hr, hd⟩ := preorder_descends model fuel _ id h
  exact descends_reachable (Reachable.root hr) hd

/-- C3, as amended. `drawModel` issues exactly one draw call per primitive for
each node. On a model with in-range indices, no cycle among the reachable nodes
and index lookups that succeed, `drawModel` returns and its `glDrawElements`
calls are the concatenation, over the reachable nodes in depth-first pre-order
from the roots of the default scene, of one call per primitive of the mesh of
the node, in primitive order, each carrying the mode of the primitive, the count
of its index accessor converted to `GLsizei` (the count itself when it is below
2^31), and the component type and byte offset of the index accessor; their
number is the sum of the primitive counts of the visited nodes. -/
theorem drawModel_one_draw_per_primitive (vao : GLuint) (ebos : Vbos) (model : Model)
    (rank : Int → Nat) (fuel : Nat)
    (hn : NodesInRange model) (hm : MeshesInRange model)
    (hi : ∀ mesh ∈ model.meshes, ∀ primitive ∈ mesh.primitives,
      InBounds model.accessors primitive.indices)
    (hl : LookupsSucceed ebos model)
    (ha : Acyclic model rank) (hf : ∀ r ∈ roots model, rank r < fuel) :
    ∃ calls, drawModel vao ebos model fuel = .ok calls ∧
      drawCalls calls = (preorder model fuel (roots model)).flatMap (nodeDraws model) ∧
      (∀ id, id ∈ preorder model fuel (roots model) ↔ Reachable model id) ∧
      (∀ id ∈ preorder model fuel (roots model), ∃ node mesh,
        at? model.nodes id = some node ∧ at? model.meshes node.mesh = some mesh ∧
        nodeDraws model id = mesh.primitives.flatMap (primitiveDraw model) ∧
        ∀ p ∈ mesh.primitives, ∃ accessor,
          at? model.accessors p.indices = some accessor ∧
          primitiveDraw model p = [GLCall.drawElements p.mode (toGLsizei accessor.count)
            accessor.componentType accessor.byteOffset] ∧
          (accessor.count < 2 ^ 31 → toGLsizei accessor.count = (accessor.count : Int))) ∧
      (drawCalls calls).length
        = ((preorder model fuel (roots model)).map (primitiveCount model)).sum := by
  obtain ⟨calls, hc, hd⟩ := drawModel_ok vao ebos model rank fuel hn ⟨hm, hi, hl⟩ ha hf
  have hnode : ∀ id ∈ preorder model fuel (roots model), ∃ node mesh,
      at? model.nodes id = some node ∧ at? model.meshes node.mesh = some mesh ∧
      nodeDraws model id = mesh.primitives.flatMap (primitiveDraw model) ∧
      ∀ p ∈ mesh.primitives, ∃ accessor,
        at? model.accessors p.indices = some accessor ∧
        primitiveDraw model p = [GLCall.drawElements p.mode (toGLsizei accessor.count)
          accessor.componentType accessor.byteOffset] ∧
        (accessor.count < 2 ^ 31 → toGLsizei accessor.count = (accessor.count : Int)) := by
    intro id hid
    obtain ⟨node, hnode⟩ := at?_of_inBounds (reachable_inBounds hn (preorder_reachable model fuel hid))
    obtain ⟨mesh, hmesh⟩ := at?_of_inBounds (hm node (at?_mem hnode))
    refine ⟨node, mesh, hnode, hmesh, by simp [nodeDraws, hnode, hmesh], fun p hp => ?_⟩
    obtain ⟨accessor, hacc⟩ := at?_of_inBounds (hi mesh (at?_mem hmesh) p hp)
    exact ⟨accessor, hacc, by simp [primitiveDraw, hacc], toGLsizei_of_lt⟩
  refine ⟨calls, hc, hd, mem_preorder_iff model rank ha fuel hf, hnode, ?_⟩
  rw [hd, List.length_flatMap]
  congr 1
  apply List.map_congr_left
  intro id hid
  obtain ⟨node, mesh, h1, h2, h3, h4⟩ := hnode id hid
  show (nodeDraws model id).length = primitiveCount model id
  rw [h3, List.length_flatMap]
  simp only [primitiveCount, h1, h2]
  have : ∀ p ∈ mesh.primitives, (List.length ∘ primitiveDraw model) p = 1 := by
    intro p hp
    obtain ⟨accessor, _, h, _⟩ := h4 p hp
    show (primitiveDraw model p).length = 1
    rw [h]; rfl
  rw [List.map_congr_left this]
  simp

/-! ### The handle map and the two walks -/

theorem isIndexView_iff (model : Model) (i : Int) :
    isIndexView model i = true ↔
      ∃ v, at? model.bufferViews i = some v ∧ v.target = GL_ELEMENT_ARRAY_BUFFER := by
  unfold isIndexView
  split
  · rename_i v hv
    simp [hv]
  · rename_i hv
    simp [hv]

theorem mapFind_filter (m : Vbos) (p : Int → Bool) (k : Int) :
    mapFind (m.filter (fun e => p e.1)) k = if p k then mapFind m k else none := by
  induction m with
  | nil => simp [mapFind]
  | cons e rest ih =>
    obtain ⟨j, v⟩ := e
    by_cases hj : p j = true
    · rw [List.filter_cons_of_pos (by simpa using hj)]
      unfold mapFind
      by_cases hk : k = j
      · subst hk; simp [hj]
      · simp only [hk, if_false]; exact ih
    · rw [List.filter_cons_of_neg (by simpa using hj)]
      rw [ih]
      by_cases hk : k = j
      · subst hk; simp [hj]
      · conv_rhs => unfold mapFind
        simp [hk]

theorem deleted_map_deleteBuffers (m : Vbos) :
    deleted (m.map (fun e => GLCall.deleteBuffers e.2)) = m.map Prod.snd := by
  induction m with
  | nil => rfl
  | cons e rest ih =>
    show deleted ([GLCall.deleteBuffers e.2] ++ rest.map (fun e => GLCall.deleteBuffers e.2)) = _
    rw [deleted_append, ih]; rfl

theorem generated_map_deleteBuffers (m : Vbos) :
    generated (m.map (fun e => GLCall.deleteBuffers e.2)) = [] := by
  induction m with
  | nil => rfl
  | cons e rest ih =>
    show generated ([GLCall.deleteBuffers e.2] ++ rest.map (fun e => GLCall.deleteBuffers e.2)) = _
    rw [generated_append, ih]; rfl

theorem keysSorted_nodup {m : Vbos} (h : KeysSorted m) : (m.map Prod.fst).Nodup :=
  List.Pairwise.imp (fun hab => ne_of_lt hab) h

theorem countP_unique {α : Type} (p : α → Bool) (a : α) :
    ∀ l : List α, l.Nodup → a ∈ l → p a = true → (∀ e ∈ l, p e = true → e = a) →
      l.countP p = 1 := by
  intro l
  induction l with
  | nil => intro _ h; cases h
  | cons x rest ih =>
    intro hnd hmem hpa huniq
    rw [List.nodup_cons] at hnd
    by_cases hx : x = a
    · subst hx
      have hzero : rest.countP p = 0 := by
        rw [List.countP_eq_zero]
        intro e he hpe
        have := huniq e (List.mem_cons_of_mem _ he) hpe
        subst this
        exact hnd.1 he
      rw [List.countP_cons_of_pos _ _ hpa, hzero]
    · have hpx : ¬ p x = true := fun h => hx (huniq x (List.mem_cons_self _ _) h)
      rw [List.countP_cons_of_neg _ _ hpx]
      have hmem2 : a ∈ rest := by
        rcases List.mem_cons.mp hmem with h | h
        · exact absurd h.symm hx
        · exact h
      exact ih hnd.2 hmem2 hpa (fun e he => huniq e (List.mem_cons_of_mem _ he))

theorem bindModel_keeps_index_buffers_core (names : Nat → GLuint) (vao : GLuint)
    (byteStride : Accessor → BufferView → Int) (model : Model) (rank : Int → Nat)
    (fuel : Nat) (hinj : Function.Injective names) (hnz : ∀ k, names k ≠ 0)
    (hr : InRange model) (ha : Acyclic model rank)
    (hf : ∀ r ∈ roots model, rank r < fuel) :
    ∃ vbos setup ebos deletes,
      bindModelSetup names vao byteStride model fuel = .ok (vbos, setup) ∧
      bindModelSweep model vbos = .ok (ebos, deletes) ∧
      bindModel names vao byteStride model fuel = .ok (vao, ebos, setup ++ deletes) ∧
      (ebos.map Prod.fst).Nodup ∧
      (∀ i, i ∈ ebos.map Prod.fst ↔
        ∃ v, at? model.bufferViews i = some v ∧ v.target = GL_ELEMENT_ARRAY_BUFFER) ∧
      (∀ i h, (i, h) ∈ ebos → h = handleOf names model i) ∧
      ebos = vbos.filter (fun e => isIndexView model e.1) ∧
      deleted (setup ++ deletes)
        = (vbos.filter (fun e => !isIndexView model e.1)).map Prod.snd ∧
      (∀ i v, at? model.bufferViews i = some v → v.target ≠ 0 →
        (v.target = GL_ELEMENT_ARRAY_BUFFER →
          (i, handleOf names model i) ∈ ebos ∧
          handleOf names model i ∉ deleted (setup ++ deletes)) ∧
        (v.target ≠ GL_ELEMENT_ARRAY_BUFFER →
          handleOf names model i ∉ ebos.map Prod.snd ∧
          (deleted (setup ++ deletes)).count (handleOf names model i) = 1)) ∧
      generated (setup ++ deletes)
        = (List.range' 0 (targeted model.bufferViews)).map names := by
  obtain ⟨vbos, setup, h1, h2, h3, hs, hdel, hgen⟩ :=
    bindModel_ok names vao byteStride model rank fuel hr ha hf
  have hG : generated (setup ++ (vbos.filter (fun e => !isIndexView model e.1)).map
      (fun e => GLCall.deleteBuffers e.2))
      = (List.range' 0 (targeted model.bufferViews)).map names := by
    rw [generated_append, hgen, generated_map_deleteBuffers, List.append_nil]
  have hD : deleted (setup ++ (vbos.filter (fun e => !isIndexView model e.1)).map
      (fun e => GLCall.deleteBuffers e.2))
      = (vbos.filter (fun e => !isIndexView model e.1)).map Prod.snd := by
    rw [deleted_append, hdel, deleted_map_deleteBuffers]; rfl
  have hkeys : (vbos.map Prod.fst).Nodup := keysSorted_nodup hs.sorted
  have hK : ∀ i v, at? model.bufferViews i = some v → v.target ≠ 0 →
      ∀ e ∈ vbos, e.2 = handleOf names model i → e.1 = i := by
    intro i v hi hv e he heq
    obtain ⟨w, hw, hw1, hw0⟩ := hs.value (i := e.1) (h := e.2) he
    by_cases hwt : w.target = 0
    · exact absurd ((hw0 hwt).symm.trans heq).symm (hnz _)
    · exact handleOf_injective names hinj model hw hwt hi hv ((hw1 hwt).symm.trans heq)
  refine ⟨vbos, setup, _, _, h1, h2, h3, ?_, ?_, ?_, rfl, hD, ?_, hG⟩
  · exact hkeys.sublist ((List.filter_sublist _).map Prod.fst)
  · intro i
    rw [← isIndexView_iff]
    constructor
    · intro hmem
      obtain ⟨e, he, rfl⟩ := List.mem_map.mp hmem
      exact (List.mem_filter.mp he).2
    · intro hidx
      obtain ⟨v, hv, ht⟩ := (isIndexView_iff model i).mp hidx
      have hne : v.target ≠ 0 := by rw [ht]; decide
      have := mapFind_some_mem (hs.uploaded i v hv hne)
      exact List.mem_map.mpr ⟨(i, handleOf names model i),
        List.mem_filter.mpr ⟨this, hidx⟩, rfl⟩
  · intro i h hmem
    obtain ⟨hm, hidx⟩ := List.mem_filter.mp hmem
    obtain ⟨v, hv, ht⟩ := (isIndexView_iff model i).mp hidx
    have hne : v.target ≠ 0 := by rw [ht]; decide
    have h1' := mapFind_of_mem hs.sorted hm
    rw [hs.uploaded i v hv hne] at h1'
    exact (Option.some.inj h1').symm
  · intro i v hi hv
    have hmem : (i, handleOf names model i) ∈ vbos := mapFind_some_mem (hs.uploaded i v hi hv)
    rw [hD]
    constructor
    · intro ht
      have hidx : isIndexView model i = true := (isIndexView_iff model i).mpr ⟨v, hi, ht⟩
      refine ⟨List.mem_filter.mpr ⟨hmem, hidx⟩, ?_⟩
      intro hd
      obtain ⟨e, he, heq⟩ := List.mem_map.mp hd
      obtain ⟨he1, he2⟩ := List.mem_filter.mp he
      have := hK i v hi hv e he1 heq
      rw [this, hidx] at he2
      simp at he2
    · intro ht
      have hidx : isIndexView model i = false := by
        cases hb : isIndexView model i with
        | false => rfl
        | true =>
          obtain ⟨w, hw, hwt⟩ := (isIndexView_iff model i).mp hb
          rw [hi] at hw; cases hw; exact absurd hwt ht
      constructor
      · intro hd
        obtain ⟨e, he, heq⟩ := List.mem_map.mp hd
        obtain ⟨he1, he2⟩ := List.mem_filter.mp he
        have := hK i v hi hv e he1 heq
        rw [this, hidx] at he2
        cases he2
      · have hnd : (vbos.filter (fun e => !isIndexView model e.1)).Nodup :=
          (List.Nodup.of_map Prod.fst hkeys).filter _
        have hin : (i, handleOf names model i)
            ∈ vbos.filter (fun e => !isIndexView model e.1) :=
          List.mem_filter.mpr ⟨hmem, by simp [hidx]⟩
        rw [List.count_eq_countP, List.countP_map]
        refine countP_unique _ (i, handleOf names model i) _ hnd hin (by simp) ?_
        intro e he h
        have he1 := (List.mem_filter.mp he).1
        have h2' : e.2 = handleOf names model i := by simpa using h
        exact Prod.ext (hK i v hi hv e he1 h2') h2'

/-- C7. `bindModel` keeps exactly the index buffers. On a model with in-range
indices (and no cycle, so that the walk returns), with buffer names that are
distinct and nonzero, `bindModel` returns; the keys of the returned map are
exactly the buffer views with target `GL_ELEMENT_ARRAY_BUFFER`, each mapped to
the handle `bindBufferViews` generated for it; the returned map is the map
before the last loop without its other entries, and the handles passed to
`glDeleteBuffers` are the handles of those other entries, one call per entry.
The handles that the `glGenBuffers` calls of the trace hand out are distinct and
are exactly the handles of the buffer views with a target, and each of them is
either returned and never deleted, or deleted exactly once and not returned. -/
theorem bindModel_keeps_exactly_index_buffers (names : Nat → GLuint) (vao : GLuint)
    (byteStride : Accessor → BufferView → Int) (model : Model) (rank : Int → Nat)
    (fuel : Nat) (hinj : Function.Injective names) (hnz : ∀ k, names k ≠ 0)
    (hr : InRange model) (ha : Acyclic model rank)
    (hf : ∀ r ∈ roots model, rank r < fuel) :
    ∃ vbos setup ebos deletes,
      bindModelSetup names vao byteStride model fuel = .ok (vbos, setup) ∧
      bindModelSweep model vbos = .ok (ebos, deletes) ∧
      bindModel names vao byteStride model fuel = .ok (vao, ebos, setup ++ deletes) ∧
      (ebos.map Prod.fst).Nodup ∧
      (∀ i, i ∈ ebos.map Prod.fst ↔
        ∃ v, at? model.bufferViews i = some v ∧ v.target = GL_ELEMENT_ARRAY_BUFFER) ∧
      (∀ i h, (i, h) ∈ ebos → h = handleOf names model i) ∧
      ebos = vbos.filter (fun e => isIndexView model e.1) ∧
      deleted (setup ++ deletes)
        = (vbos.filter (fun e => !isIndexView model e.1)).map Prod.snd ∧
      (∀ i v, at? model.bufferViews i = some v → v.target ≠ 0 →
        (v.target = GL_ELEMENT_ARRAY_BUFFER →
          (i, handleOf names model i) ∈ ebos ∧
          handleOf names model i ∉ deleted (setup ++ deletes)) ∧
        (v.target ≠ GL_ELEMENT_ARRAY_BUFFER →
          handleOf names model i ∉ ebos.map Prod.snd ∧
          (deleted (setup ++ deletes)).count (handleOf names model i) = 1)) ∧
      (generated (setup ++ deletes)).Nodup ∧
      (∀ h, h ∈ generated (setup ++ deletes) ↔
        ∃ i v, at? model.bufferViews i = some v ∧ v.target ≠ 0 ∧
          h = handleOf names model i) ∧
      (∀ h ∈ generated (setup ++ deletes),
        (h ∈ ebos.map Prod.snd ∧ h ∉ deleted (setup ++ deletes)) ∨
        (h ∉ ebos.map Prod.snd ∧ (deleted (setup ++ deletes)).count h = 1)) := by
  obtain ⟨vbos, setup, ebos, deletes, h1, h2, h3, h4, h5, h6, h7, h8, h9, hG⟩ :=
    bindModel_keeps_index_buffers_core names vao byteStride model rank fuel hinj hnz hr ha hf
  have hmem : ∀ h, h ∈ generated (setup ++ deletes) ↔
      ∃ i v, at? model.bufferViews i = some v ∧ v.target ≠ 0 ∧
        h = handleOf names model i := by
    intro h
    rw [hG]
    exact mem_generated_iff names model h
  refine ⟨vbos, setup, ebos, deletes, h1, h2, h3, h4, h5, h6, h7, h8, h9, ?_, hmem, ?_⟩
  · rw [hG]
    exact (List.nodup_range' 0 _).map hinj
  · intro h hh
    obtain ⟨i, v, hi, hv, rfl⟩ := (hmem h).mp hh
    by_cases ht : v.target = GL_ELEMENT_ARRAY_BUFFER
    · obtain ⟨hin, hnd⟩ := (h9 i v hi hv).1 ht
      exact Or.inl ⟨List.mem_map.mpr ⟨_, hin, rfl⟩, hnd⟩
    · exact Or.inr ((h9 i v hi hv).2 ht)

/-- C1, as amended. On a model whose indices are in range `bindBufferViews`
returns, and the map then holds, for every buffer view with a nonzero target,
the handle generated for it, the trace holding the calls that generate this
handle and fill it with the bytes of the view; a buffer view with target 0 has
no key. On this map, and on every map the bind walk makes of it (`Settled`),
`bindMesh` returns for every mesh of the model and leaves such a map again, and
for each attribute named `POSITION`, `NORMAL` or `TEXCOORD_0`: when the buffer
view of its accessor has a nonzero target the read `vbos[accessor.bufferView]`
finds the generated handle, which is the handle bound, and changes nothing at
that key; when the buffer view has target 0 the key is absent or holds 0 before,
the handle bound is 0, and the map holds the key with handle 0 afterwards. -/
theorem bindBufferViews_uploads_targeted_views (names : Nat → GLuint) (model : Model)
    (hr : InRange model) :
    ∃ vbos calls, bindBufferViews names [] model = .ok (vbos, calls) ∧
      (∀ i v, at? model.bufferViews i = some v → v.target ≠ 0 →
        mapFind vbos i = some (handleOf names model i) ∧
        ∃ pre post, calls = pre ++ uploadCalls (handleOf names model i) v
          (viewBytes model v) ++ post) ∧
      (∀ i v, at? model.bufferViews i = some v → v.target = 0 → mapFind vbos i = none) ∧
      Uploaded names model vbos ∧
      (∀ m, Uploaded names model m → ∀ key,
        Uploaded names model (mapIndex m key).2 ∧
        ∀ v, at? model.bufferViews key = some v → v.target ≠ 0 →
          mapIndex m key = (handleOf names model key, m)) ∧
      Settled names model vbos ∧
      (∀ m, Settled names model m → ∀ byteStride, ∀ mesh ∈ model.meshes,
        ∃ out, bindMesh byteStride m model mesh = .ok (out,
            mesh.primitives.flatMap
              (fun p => p.attributes.flatMap (attributeCalls byteStride m model))) ∧
          Settled names model out ∧
          ∀ p ∈ mesh.primitives, ∀ attr ∈ p.attributes,
            attr.1 = "POSITION" ∨ attr.1 = "NORMAL" ∨ attr.1 = "TEXCOORD_0" →
            ∃ accessor v location,
              at? model.accessors attr.2 = some accessor ∧
              at? model.bufferViews accessor.bufferView = some v ∧
              (v.target ≠ 0 →
                mapFind m accessor.bufferView
                  = some (handleOf names model accessor.bufferView) ∧
                mapFind out accessor.bufferView
                  = some (handleOf names model accessor.bufferView) ∧
                attributeCalls byteStride m model attr =
                  [GLCall.bindBuffer GL_ARRAY_BUFFER
                     (handleOf names model accessor.bufferView),
                   GLCall.enableVertexAttribArray location,
                   GLCall.vertexAttribPointer location (componentCount accessor.type)
                     accessor.componentType accessor.normalized (byteStride accessor v)
                     accessor.byteOffset]) ∧
              (v.target = 0 →
                (mapFind m accessor.bufferView = none ∨
                  mapFind m accessor.bufferView = some 0) ∧
                mapFind out accessor.bufferView = some 0 ∧
                attributeCalls byteStride m model attr =
                  [GLCall.bindBuffer GL_ARRAY_BUFFER 0,
                   GLCall.enableVertexAttribArray location,
                   GLCall.vertexAttribPointer location (componentCount accessor.type)
                     accessor.componentType accessor.normalized (byteStride accessor v)
                     accessor.byteOffset])) := by
  obtain ⟨out, calls, hrun, hsort, hup, hsame, _, _, _⟩ :=
    bindBufferViews_spec names model hr.2.2 []
  have hnone : ∀ i v, at? model.bufferViews i = some v → v.target = 0 →
      mapFind out i = none := by
    intro i v hi hv
    rw [hsame i (fun w hw => by rw [hi] at hw; cases hw; exact hv)]
    rfl
  have hsettled : Settled names model out := by
    refine ⟨hsort (by simp [KeysSorted]), fun i v hi hv => (hup i v hi hv).1,
      fun i h hfind => ?_⟩
    cases hv : at? model.bufferViews i with
    | none =>
      rw [hsame i (fun v hv1 => by rw [hv] at hv1; cases hv1)] at hfind
      simp [mapFind] at hfind
    | some v =>
      refine ⟨v, rfl, fun ht => ?_⟩
      rw [hnone i v hv ht] at hfind
      cases hfind
  refine ⟨out, calls, hrun, hup, hnone, fun i v hi hv => (hup i v hi hv).1, ?_,
    hsettled, ?_⟩
  · intro m hm key
    constructor
    · intro i v hi hv
      unfold mapIndex
      split
      · exact hm i v hi hv
      · rename_i hnone1
        have hne : i ≠ key := by
          intro h; subst h
          rw [hm i v hi hv] at hnone1; cases hnone1
        rw [mapFind_mapInsert_ne m key 0 i hne]
        exact hm i v hi hv
    · intro v hv ht
      unfold mapIndex
      rw [hm key v hv ht]
  · intro m hm byteStride mesh hmesh
    obtain ⟨out1, h1, hg, hread⟩ := bindMesh_ok_of_mem byteStride model hr.2.1 mesh hmesh m
    refine ⟨out1, h1, hm.grows hg, ?_⟩
    intro p hp attr hattr hname
    obtain ⟨accessor, hacc⟩ := at?_of_inBounds ((hr.2.1.1 mesh hmesh p hp).2 attr hattr)
    obtain ⟨v, hv⟩ := at?_of_inBounds (hr.2.1.2 accessor (at?_mem hacc))
    have hloc : ∃ location, attributeLocation attr.1 = some location := by
      rcases hname with h | h | h <;> rw [h]
      · exact ⟨0, by decide⟩
      · exact ⟨1, by decide⟩
      · exact ⟨2, by decide⟩
    obtain ⟨location, hloc⟩ := hloc
    have hout := hread p hp attr hattr (by simp [hloc]) accessor hacc
    refine ⟨accessor, v, location, hacc, hv, ?_, ?_⟩
    · intro ht
      have hfind := hm.uploaded _ v hv ht
      refine ⟨hfind, by rw [hout, hfind]; rfl, ?_⟩
      simp [attributeCalls, hloc, hacc, hv, hfind]
    · intro ht
      have hzero : (mapFind m accessor.bufferView).getD 0 = 0 := by
        cases hfind : mapFind m accessor.bufferView with
        | none => rfl
        | some h =>
          obtain ⟨w, hw, hw0⟩ := hm.other _ h hfind
          rw [hv] at hw
          cases hw
          simp [hw0 ht]
      refine ⟨?_, by rw [hout, hzero], ?_⟩
      · cases hfind : mapFind m accessor.bufferView with
        | none => exact Or.inl rfl
        | some h =>
          rw [hfind] at hzero
          exact Or.inr (by simpa using hzero)
      · simp [attributeCalls, hloc, hacc, hv, hzero]

/-- C2, as amended. On a model whose indices are all in range, whose reachable
nodes have no cycle, and in which the buffer view of the index accessor of every
primitive has target `GL_ELEMENT_ARRAY_BUFFER`, `bindModel` returns a map that
holds the buffer view of every index accessor, and `drawModel` run with that map
returns: no lookup `ebos.at(accessor.bufferView)` raises `out_of_range`. -/
theorem drawModel_finds_index_buffers (names : Nat → GLuint) (vao : GLuint)
    (byteStride : Accessor → BufferView → Int) (model : Model) (rank : Int → Nat)
    (fuel : Nat) (hr : InRange model) (hm : MeshesInRange model)
    (ht : IndexViewsTargeted model) (ha : Acyclic model rank)
    (hf : ∀ r ∈ roots model, rank r < fuel) :
    ∃ ebos binds draws,
      bindModel names vao byteStride model fuel = .ok (vao, ebos, binds) ∧
      LookupsSucceed ebos model ∧
      drawModel vao ebos model fuel = .ok draws := by
  obtain ⟨vbos, setup, _, _, h3, hs, _⟩ :=
    bindModel_ok names vao byteStride model rank fuel hr ha hf
  have hl : LookupsSucceed (vbos.filter (fun e => isIndexView model e.1)) model := by
    intro mesh hmesh p hp accessor hacc
    obtain ⟨v, hv, hvt⟩ := (isIndexView_iff model _).mp (ht mesh hmesh p hp accessor hacc)
    have hne : v.target ≠ 0 := by rw [hvt]; decide
    rw [mapFind_filter vbos (isIndexView model), (isIndexView_iff model _).mpr ⟨v, hv, hvt⟩,
      if_pos rfl, hs.uploaded _ v hv hne]
    simp
  obtain ⟨draws, hd, _⟩ := drawModel_ok vao _ model rank fuel hr.1
    ⟨hm, fun mesh hmesh p hp => (hr.2.1.1 mesh hmesh p hp).1, hl⟩ ha hf
  exact ⟨_, _, draws, h3, hl, hd⟩

/-- C8, as amended. On a model whose indices are in range and whose reachable
nodes form a tree, with fuel above the rank of the roots, both recursions
terminate: the pre-order from the roots has no repetition and holds exactly the
reachable nodes; `bindModel` returns and the nodes its walk enters are that
pre-order, each reachable node once; `drawModel` never runs out of fuel and the
nodes its walk enters are that pre-order whenever it runs to its end; when
every node names a mesh it runs to its end if the index lookups succeed at
every reachable node, and raises `out_of_range` if a lookup fails at a
reachable node. -/
theorem walks_terminate_single_pass (names : Nat → GLuint) (vao : GLuint)
    (byteStride : Accessor → BufferView → Int) (ebos : Vbos) (model : Model)
    (rank : Int → Nat) (fuel : Nat) (hr : InRange model) (ht : IsTree model rank)
    (hf : ∀ r ∈ roots model, rank r < fuel) :
    (preorder model fuel (roots model)).Nodup ∧
    (∀ id, id ∈ preorder model fuel (roots model) ↔ Reachable model id) ∧
    (∃ ebos1 binds, bindModel names vao byteStride model fuel = .ok (vao, ebos1, binds) ∧
      entered binds = preorder model fuel (roots model)) ∧
    drawModel vao ebos model fuel ≠ .error .outOfFuel ∧
    (∀ draws, drawModel vao ebos model fuel = .ok draws →
      entered draws = preorder model fuel (roots model)) ∧
    (MeshesInRange model → LookupsSucceed ebos model →
      ∃ draws, drawModel vao ebos model fuel = .ok draws) ∧
    (MeshesInRange model →
      ((∀ id, Reachable model id → NodeLookupsSucceed ebos model id) →
        ∃ draws, drawModel vao ebos model fuel = .ok draws) ∧
      ((∃ id, Reachable model id ∧ ¬ NodeLookupsSucceed ebos model id) →
        drawModel vao ebos model fuel = .error .outOfRange)) := by
  have hw := drawModel_walked vao ebos model rank fuel ht.acyclic hf
  have hiff := mem_preorder_iff model rank ht.acyclic fuel hf
  refine ⟨?_, hiff, ?_, hw.ne, fun draws hd => hw.ok hd, ?_, ?_⟩
  rotate_right
  · intro hm
    have hout := drawModel_outcome vao ebos model rank fuel hr.1 hm
      (fun mesh hmesh p hp => (hr.2.1.1 mesh hmesh p hp).1) ht.acyclic hf
    constructor
    · intro hall
      rcases hout with ⟨hok, _⟩ | ⟨_, x, hx, hbad⟩
      · exact hok
      · exact absurd (hall x ((hiff x).mp hx)) hbad
    · rintro ⟨x, hx, hbad⟩
      rcases hout with ⟨_, hgood⟩ | ⟨herr, _⟩
      · exact absurd (hgood x ((hiff x).mpr hx)) hbad
      · exact herr
  · exact preorder_nodup model rank ht fuel (roots model) (within_roots hf) ht.rootsNodup
      (noParentBelow_roots ht)
  · obtain ⟨vbos, setup, _, _, h3, _, _⟩ :=
      bindModel_ok names vao byteStride model rank fuel hr ht.acyclic hf
    exact ⟨_, _, h3, (bindModel_walked names vao byteStride model rank fuel ht.acyclic hf).ok h3⟩
  · intro hm hl
    obtain ⟨draws, hd, _⟩ := drawModel_ok vao ebos model rank fuel hr.1
      ⟨hm, fun mesh hmesh p hp => (hr.2.1.1 mesh hmesh p hp).1, hl⟩ ht.acyclic hf
    exact ⟨draws, hd⟩

/-! ### Concrete models -/

theorem childrenOf_sampleModel (p : Int) :
    childrenOf sampleModel p = if p = 0 then [1, 2] else [] := by
  unfold childrenOf at?
  by_cases h0 : 0 ≤ p
  · obtain ⟨n, rfl⟩ := Int.eq_ofNat_of_zero_le h0
    match n with
    | 0 => rfl
    | 1 => rfl
    | 2 => rfl
    | n + 3 =>
      have h1 : ((n + 3 : Nat) : Int).toNat = n + 3 := Int.toNat_ofNat _
      have h2 : ((n + 3 : Nat) : Int) ≠ 0 := by omega
      simp only [h0, if_true, h1, h2, if_false]
      rfl
  · have : p ≠ 0 := by omega
    simp [h0, this]

theorem sampleModel_acyclic : Acyclic sampleModel sampleRank := by
  intro p _ c hc
  rw [childrenOf_sampleModel] at hc
  by_cases hp : p = 0
  · subst hp
    simp at hc
    rcases hc with rfl | rfl <;> decide
  · simp [hp] at hc

theorem sampleModel_isTree : IsTree sampleModel sampleRank := by
  refine ⟨sampleModel_acyclic, by decide, ?_, ?_, ?_⟩
  · intro p _
    rw [childrenOf_sampleModel]
    split <;> decide
  · intro p q _ _ c hp hq
    rw [childrenOf_sampleModel] at hp hq
    by_cases h1 : p = 0
    · by_cases h2 : q = 0
      · rw [h1, h2]
      · simp [h2] at hq
    · simp [h1] at hp
  · intro p _ c hc
    rw [childrenOf_sampleModel] at hc
    by_cases h1 : p = 0
    · simp [h1] at hc
      rcases hc with rfl | rfl <;> decide
    · simp [h1] at hc

theorem childrenOf_untargetedIndexTree (p : Int) :
    childrenOf untargetedIndexTree p = if p = 0 then [1] else [] := by
  unfold childrenOf at?
  by_cases h0 : 0 ≤ p
  · obtain ⟨n, rfl⟩ := Int.eq_ofNat_of_zero_le h0
    match n with
    | 0 => rfl
    | 1 => rfl
    | n + 2 =>
      have h1 : ((n + 2 : Nat) : Int).toNat = n + 2 := Int.toNat_ofNat _
      have h2 : ((n + 2 : Nat) : Int) ≠ 0 := by omega
      simp only [h0, if_true, h1, h2, if_false]
      rfl
  · have : p ≠ 0 := by omega
    simp [h0, this]

theorem untargetedIndexTree_isTree : IsTree untargetedIndexTree sampleRank := by
  refine ⟨?_, by decide, ?_, ?_, ?_⟩
  · intro p _ c hc
    rw [childrenOf_untargetedIndexTree] at hc
    by_cases hp : p = 0
    · subst hp
      simp at hc
      subst hc
      decide
    · simp [hp] at hc
  · intro p _
    rw [childrenOf_untargetedIndexTree]
    split <;> decide
  · intro p q _ _ c hp hq
    rw [childrenOf_untargetedIndexTree] at hp hq
    by_cases h1 : p = 0
    · by_cases h2 : q = 0
      · rw [h1, h2]
      · simp [h2] at hq
    · simp [h1] at hp
  · intro p _ c hc
    rw [childrenOf_untargetedIndexTree] at hc
    by_cases h1 : p = 0
    · simp [h1] at hc
      subst hc
      decide
    · simp [h1] at hc

theorem childrenOf_orderedModel (p : Int) :
    childrenOf orderedModel p = if p = 0 then [1, 2] else [] := by
  unfold childrenOf at?
  by_cases h0 : 0 ≤ p
  · obtain ⟨n, rfl⟩ := Int.eq_ofNat_of_zero_le h0
    match n with
    | 0 => rfl
    | 1 => rfl
    | 2 => rfl
    | n + 3 =>
      have h1 : ((n + 3 : Nat) : Int).toNat = n + 3 := Int.toNat_ofNat _
      have h2 : ((n + 3 : Nat) : Int) ≠ 0 := by omega
      simp only [h0, if_true, h1, h2, if_false]
      rfl
  · have : p ≠ 0 := by omega
    simp [h0, this]

theorem orderedModel_acyclic : Acyclic orderedModel sampleRank := by
  intro p _ c hc
  rw [childrenOf_orderedModel] at hc
  by_cases hp : p = 0
  · subst hp
    simp at hc
    rcases hc with rfl | rfl <;> decide
  · simp [hp] at hc

theorem childrenOf_hugeCountModel (p : Int) : childrenOf hugeCountModel p = [] := by
  unfold childrenOf at?
  by_cases h0 : 0 ≤ p
  · obtain ⟨n, rfl⟩ := Int.eq_ofNat_of_zero_le h0
    match n with
    | 0 => rfl
    | n + 1 =>
      have h1 : ((n + 1 : Nat) : Int).toNat = n + 1 := Int.toNat_ofNat _
      simp only [h0, if_true, h1]
      rfl
  · simp [h0]

theorem hugeCountModel_isTree : IsTree hugeCountModel sampleRank := by
  refine ⟨?_, by decide, ?_, ?_, ?_⟩
  · intro p _ c hc
    rw [childrenOf_hugeCountModel] at hc
    cases hc
  · intro p _
    rw [childrenOf_hugeCountModel]
    exact List.nodup_nil
  · intro p q _ _ c hp _
    rw [childrenOf_hugeCountModel] at hp
    cases hp
  · intro p _ c hc
    rw [childrenOf_hugeCountModel] at hc
    cases hc

theorem sampleNames_injective : Function.Injective sampleNames :=
  fun _ _ h => Nat.succ.inj h

/-- C6, the defect at a node without mesh. On `meshlessModel` the bind walk
skips the missing mesh of the root and goes on to the child, and `bindModel`
returns; the draw walk indexes `model.meshes` with `-1` at the root, which is
undefined behaviour, and processes no mesh at all. -/
theorem drawModelNodes_meshless_node_undefined :
    InRange meshlessModel ∧
    bindModel sampleNames 1 sampleStride meshlessModel 2 = .ok (1, [(1, 2)],
      [GLCall.genVertexArrays 1, GLCall.bindVertexArray 1,
       GLCall.genBuffers 1, GLCall.bindBuffer 34962 1,
       GLCall.bufferData 34962 4 [10, 11, 12, 13] 35044, GLCall.bindBuffer 34962 0,
       GLCall.genBuffers 2, GLCall.bindBuffer 34963 2,
       GLCall.bufferData 34963 4 [14, 15, 16, 17] 35044, GLCall.bindBuffer 34963 0,
       GLCall.enterNode 0, GLCall.enterNode 1,
       GLCall.bindBuffer 34962 1, GLCall.enableVertexAttribArray 0,
       GLCall.vertexAttribPointer 0 3 5126 false 12 0,
       GLCall.bindVertexArray 0, GLCall.deleteBuffers 1]) ∧
    drawModel 1 [(1, 2)] meshlessModel 2 = .error .undefinedBehaviour :=
  ⟨by decide, rfl, rfl⟩

/-- C9, the defect with more than one primitive. On `twoPrimitiveModel` the
two primitives take their positions at byte offsets 0 and 36; both draw calls
are made with location 0 set from the second primitive (offset 36), the
attribute of the first having been overwritten in the one vertex array. -/
theorem drawModel_first_primitive_uses_last_attributes :
    InRange twoPrimitiveModel ∧ MeshesInRange twoPrimitiveModel ∧
    ∃ ebos binds draws,
      bindModel sampleNames 1 sampleStride twoPrimitiveModel 2 = .ok (1, ebos, binds) ∧
      drawModel 1 ebos twoPrimitiveModel 2 = .ok draws ∧
      drawCalls draws = [GLCall.drawElements 4 3 5123 0, GLCall.drawElements 4 3 5123 6] ∧
      attribsAtDraws GLState.initial (binds ++ draws) =
        [[some ⟨1, 3, 5126, false, 12, 36⟩, none, none],
         [some ⟨1, 3, 5126, false, 12, 36⟩, none, none]] :=
  ⟨by decide, by decide, _, _, _, rfl, rfl, rfl, rfl⟩

/-- C1, counterexample. The indices of `untargetedModel` are in range and the
buffer view 0 of its `POSITION` accessor has target 0: after `bindBufferViews`
the map has no key 0, the read `vbos[0]` creates the entry `(0, 0)`, and
`bindMesh` binds the handle 0 to `GL_ARRAY_BUFFER`. -/
theorem bindBufferViews_skips_untargeted_view :
    InRange untargetedModel ∧
    bindBufferViews sampleNames [] untargetedModel = .ok ([(1, 1)],
      [GLCall.genBuffers 1, GLCall.bindBuffer 34963 1,
       GLCall.bufferData 34963 4 [14, 15, 16, 17] 35044, GLCall.bindBuffer 34963 0]) ∧
    mapFind [(1, 1)] 0 = none ∧
    mapIndex [(1, 1)] 0 = (0, [(0, 0), (1, 1)]) ∧
    bindModelSetup sampleNames 1 sampleStride untargetedModel 2 = .ok ([(0, 0), (1, 1)],
      [GLCall.genVertexArrays 1, GLCall.bindVertexArray 1,
       GLCall.genBuffers 1, GLCall.bindBuffer 34963 1,
       GLCall.bufferData 34963 4 [14, 15, 16, 17] 35044, GLCall.bindBuffer 34963 0,
       GLCall.enterNode 0,
       GLCall.bindBuffer 34962 0, GLCall.enableVertexAttribArray 0,
       GLCall.vertexAttribPointer 0 3 5126 false 12 0,
       GLCall.bindVertexArray 0]) :=
  ⟨by decide, rfl, rfl, rfl, rfl⟩

/-- C2, counterexample. The indices of `untargetedIndexModel` are in range
and the buffer view of its index accessor has target 0: `bindModel` returns an
empty map and `drawModel` run with it raises `out_of_range`. -/
theorem drawModel_misses_untargeted_index_view :
    InRange untargetedIndexModel ∧ MeshesInRange untargetedIndexModel ∧
    bindModel sampleNames 1 sampleStride untargetedIndexModel 2 = .ok (1, [],
      [GLCall.genVertexArrays 1, GLCall.bindVertexArray 1,
       GLCall.genBuffers 1, GLCall.bindBuffer 34962 1,
       GLCall.bufferData 34962 4 [10, 11, 12, 13] 35044, GLCall.bindBuffer 34962 0,
       GLCall.enterNode 0,
       GLCall.bindBuffer 34962 1, GLCall.enableVertexAttribArray 0,
       GLCall.vertexAttribPointer 0 3 5126 false 12 0,
       GLCall.bindVertexArray 0, GLCall.deleteBuffers 1]) ∧
    drawModel 1 [] untargetedIndexModel 2 = .error .outOfRange :=
  ⟨by decide, by decide, rfl, rfl⟩

/-- C8, counterexample. The indices of `untargetedIndexTree` are in range and
its two reachable nodes form a tree; `bindModel` returns the empty map, and the
draw walk raises `out_of_range` in the mesh of the root, before the child is
visited: the walk ends there and the child is not processed. -/
theorem drawModelNodes_stops_at_failed_lookup :
    InRange untargetedIndexTree ∧ MeshesInRange untargetedIndexTree ∧
    IsTree untargetedIndexTree sampleRank ∧
    Reachable untargetedIndexTree 1 ∧
    (∃ binds, bindModel sampleNames 1 sampleStride untargetedIndexTree 2
      = .ok (1, [], binds)) ∧
    drawModelMeshes [] untargetedIndexTree ⟨[⟨[("POSITION", 0)], 1, 4⟩]⟩
      = .error .outOfRange ∧
    drawModelNodes [] untargetedIndexTree 2 ⟨0, [1]⟩ = .error .outOfRange ∧
    drawModel 1 [] untargetedIndexTree 2 = .error .outOfRange :=
  ⟨by decide, by decide, untargetedIndexTree_isTree,
    @Reachable.child untargetedIndexTree 0 1
      (@Reachable.root untargetedIndexTree 0 (by decide)) (by decide),
    ⟨_, rfl⟩, rfl, rfl, rfl⟩

/-- C3, counterexample. The indices of `hugeCountModel` are in range, its one
node is a tree and the index lookup succeeds; the index accessor has the count
2^32 + 3, and the one `glDrawElements` call carries the count 3. -/
theorem drawModel_count_wraps :
    InRange hugeCountModel ∧ MeshesInRange hugeCountModel ∧
    IsTree hugeCountModel sampleRank ∧
    LookupsSucceed [(1, 2)] hugeCountModel ∧
    (∃ binds, bindModel sampleNames 1 sampleStride hugeCountModel 2
      = .ok (1, [(1, 2)], binds)) ∧
    at? hugeCountModel.accessors 1 = some ⟨1, 0, false, 5123, 4294967299, 65⟩ ∧
    drawModel 1 [(1, 2)] hugeCountModel 2 = .ok
      [GLCall.bindVertexArray 1, GLCall.enterNode 0,
       GLCall.bindBuffer 34963 2, GLCall.drawElements 4 3 5123 0,
       GLCall.bindBuffer 34963 0, GLCall.bindVertexArray 0] ∧
    (3 : Int) ≠ ((4294967299 : Nat) : Int) :=
  ⟨by decide, by decide, hugeCountModel_isTree, by decide, ⟨_, rfl⟩, rfl, rfl, by decide⟩

/-! ### Witnesses -/

/-- C1, witness of the amended statement on `sampleModel`. -/
theorem bindBufferViews_uploads_targeted_views_witness :
    InRange sampleModel ∧
    ∃ vbos calls, bindBufferViews sampleNames [] sampleModel = .ok (vbos, calls) ∧
      Uploaded sampleNames sampleModel vbos ∧ Settled sampleNames sampleModel vbos ∧
      ∃ out, bindMesh sampleStride vbos sampleModel
          ⟨[⟨[("NORMAL", 2), ("POSITION", 0)], 1, 4⟩]⟩ = .ok (out,
        ([⟨[("NORMAL", 2), ("POSITION", 0)], 1, 4⟩] : List Primitive).flatMap
          (fun p => p.attributes.flatMap (attributeCalls sampleStride vbos sampleModel))) := by
  refine ⟨by decide, ?_⟩
  obtain ⟨vbos, calls, h, _, _, hu, _, hs, hmesh⟩ :=
    bindBufferViews_uploads_targeted_views sampleNames sampleModel (by decide)
  obtain ⟨out, hout, _⟩ := hmesh vbos hs sampleStride
    ⟨[⟨[("NORMAL", 2), ("POSITION", 0)], 1, 4⟩]⟩ (by decide)
  exact ⟨vbos, calls, h, hu, hs, out, hout⟩

/-- C2, witness of the amended statement on `sampleModel`. -/
theorem drawModel_finds_index_buffers_witness :
    InRange sampleModel ∧ MeshesInRange sampleModel ∧ IndexViewsTargeted sampleModel ∧
    ∃ ebos binds draws,
      bindModel sampleNames 1 sampleStride sampleModel 2 = .ok (1, ebos, binds) ∧
      LookupsSucceed ebos sampleModel ∧
      drawModel 1 ebos sampleModel 2 = .ok draws :=
  ⟨by decide, by decide, by decide,
    drawModel_finds_index_buffers sampleNames 1 sampleStride sampleModel sampleRank 2
      (by decide) (by decide) (by decide) sampleModel_acyclic (by decide)⟩

/-- C3, witness of the amended statement on `orderedModel`: the root draws
its one primitive, then the first child its two primitives in their order, then
the second child its one primitive. -/
theorem drawModel_one_draw_per_primitive_witness :
    NodesInRange orderedModel ∧ MeshesInRange orderedModel ∧
    LookupsSucceed [(1, 2)] orderedModel ∧
    ∃ calls, drawModel 1 [(1, 2)] orderedModel 2 = .ok calls ∧
      drawCalls calls = [GLCall.drawElements 4 3 5123 0, GLCall.drawElements 1 6 5125 2,
        GLCall.drawElements 0 3 5123 0, GLCall.drawElements 4 3 5123 0] ∧
      (drawCalls calls).length = 4 := by
  refine ⟨by decide, by decide, by decide, ?_⟩
  obtain ⟨calls, h1, h2, _, _, h3⟩ :=
    drawModel_one_draw_per_primitive 1 [(1, 2)] orderedModel sampleRank 2
      (by decide) (by decide) (by decide) (by decide) orderedModel_acyclic (by decide)
  exact ⟨calls, h1, h2.trans rfl, h3.trans rfl⟩

/-- C4, witness: a primitive with a normal, a position and an attribute of
unknown name. -/
theorem bindMesh_binds_by_semantic_name_witness :
    ∃ out, bindMesh sampleStride [(0, 1), (1, 2)] sampleModel
        ⟨[⟨[("NORMAL", 2), ("POSITION", 0), ("TANGENT", 7)], 1, 4⟩]⟩ = .ok (out,
      [GLCall.bindBuffer 34962 1, GLCall.enableVertexAttribArray 1,
       GLCall.vertexAttribPointer 1 3 5126 false 12 2,
       GLCall.bindBuffer 34962 1, GLCall.enableVertexAttribArray 0,
       GLCall.vertexAttribPointer 0 3 5126 false 12 0]) :=
  (bindMesh_binds_by_semantic_name sampleStride [(0, 1), (1, 2)] sampleModel
    ⟨[⟨[("NORMAL", 2), ("POSITION", 0), ("TANGENT", 7)], 1, 4⟩]⟩
    (by decide) (by decide)).1

/-- C7, witness on `sampleModel`. -/
theorem bindModel_keeps_exactly_index_buffers_witness :
    InRange sampleModel ∧
    ∃ ebos calls, bindModel sampleNames 1 sampleStride sampleModel 2 = .ok (1, ebos, calls) ∧
      (∀ i, i ∈ ebos.map Prod.fst ↔
        ∃ v, at? sampleModel.bufferViews i = some v ∧ v.target = GL_ELEMENT_ARRAY_BUFFER) ∧
      (∀ i h, (i, h) ∈ ebos → h = handleOf sampleNames sampleModel i) ∧
      (generated calls).Nodup ∧
      (∀ h ∈ generated calls,
        (h ∈ ebos.map Prod.snd ∧ h ∉ deleted calls) ∨
        (h ∉ ebos.map Prod.snd ∧ (deleted calls).count h = 1)) := by
  refine ⟨by decide, ?_⟩
  obtain ⟨vbos, setup, ebos, deletes, _, _, h3, _, h5, h6, _, _, _, h10, _, h12⟩ :=
    bindModel_keeps_exactly_index_buffers sampleNames 1 sampleStride sampleModel sampleRank 2
      sampleNames_injective (fun k => Nat.succ_ne_zero k) (by decide) sampleModel_acyclic
      (by decide)
  exact ⟨ebos, _, h3, h5, h6, h10, h12⟩

/-- C8, witness of the amended statement on `sampleModel`, whose pre-order is
0, 1, 2. -/
theorem walks_terminate_single_pass_witness :
    InRange sampleModel ∧
    (preorder sampleModel 2 (roots sampleModel)).Nodup ∧
    preorder sampleModel 2 (roots sampleModel) = [0, 1, 2] ∧
    (∃ ebos1 binds, bindModel sampleNames 1 sampleStride sampleModel 2
        = .ok (1, ebos1, binds) ∧
      entered binds = preorder sampleModel 2 (roots sampleModel)) ∧
    drawModel 1 [(1, 2)] sampleModel 2 ≠ .error .outOfFuel := by
  obtain ⟨h1, _, h3, h4, _⟩ :=
    walks_terminate_single_pass sampleNames 1 sampleStride [(1, 2)] sampleModel sampleRank 2
      (by decide) sampleModel_isTree (by decide)
  exact ⟨by decide, h1, rfl, h3, h4⟩

end Gltf
